import Mathlib

/-!
Verification of the generation-level assignment algorithm and the
delete-person operation of the family-tree application (src/tree.py).

The person mapping (a Python dict keyed by opaque identifiers) is embedded
as an association list `FamilyData ID`, which preserves the dict's
insertion-order iteration.  Each phase of `calculate_generation_levels`
(reset, root detection, seeding, FIFO breadth-first relaxation, orphan
fallback, normalization) is translated as its own definition, and the
function itself is their composition, exactly as in the source.

The Python `while queue:` loop is embedded as `bfsLoop` with an explicit
iteration budget equal to the number of people; the theorem for claim C2
shows the queue always empties within that budget (each identifier is
enqueued at most once, on its single transition from unassigned to
assigned), so the budgeted loop coincides with the unbounded one.
-/

namespace FamilyTree

/-- A person record.  Only the fields the algorithms read are modelled:
the relationship lists, the two spouse references, and the derived
`level` field (`none` is Python's `None`, i.e. "unassigned"). -/
structure Person (ID : Type) where
  parents : List ID := []
  children : List ID := []
  married_to : Option ID := none
  divorced_from : Option ID := none
  level : Option Int := none
deriving Repr, DecidableEq

/-- The in-memory dataset: a mapping from identifier to person record,
with the dict's insertion order. -/
abbrev FamilyData (ID : Type) := List (ID × Person ID)

variable {ID : Type} [DecidableEq ID]

/-- The list of keys of the mapping. -/
def keys (fd : FamilyData ID) : List ID :=
  fd.map Prod.fst

/-- Python's `x in family_data` membership test. -/
def containsKey (fd : FamilyData ID) (i : ID) : Bool :=
  fd.any fun e => decide (e.1 = i)

/-- Python's `family_data[i]` lookup (first matching entry), made total. -/
def getPerson (fd : FamilyData ID) (i : ID) : Option (Person ID) :=
  (fd.find? fun e => decide (e.1 = i)).map Prod.snd

/-- The read `family_data[i]['level']`; `none` both for an unassigned
level and for an absent key (every use site guards presence). -/
def getLevel (fd : FamilyData ID) (i : ID) : Option Int :=
  match getPerson fd i with
  | some p => p.level
  | none => none

/-- The write `family_data[i]['level'] = l`. -/
def setLevel (fd : FamilyData ID) (i : ID) (l : Int) : FamilyData ID :=
  fd.map fun e => if e.1 = i then (e.1, { e.2 with level := some l }) else e

/-- Apply a record-wise transformation to every value of the mapping
(an in-place `for ... in family_data.items()` update loop). -/
def mapPersons (g : Person ID → Person ID) (fd : FamilyData ID) : FamilyData ID :=
  fd.map fun e => (e.1, g e.2)

/-- Forget a person's level (keeping the relationship fields). -/
def stripLevel (p : Person ID) : Person ID :=
  { p with level := none }

/-- Phase 1 (tree.py lines 126-127): set every `level` to `None`. -/
def resetLevels (fd : FamilyData ID) : FamilyData ID :=
  mapPersons stripLevel fd

/-- `base_level = 2` (tree.py line 130). -/
def base_level : Int := 2

/-- The root test of tree.py lines 133-136: no parents listed, or every
listed parent identifier absent from the mapping. -/
def isInitialRoot (fd : FamilyData ID) (p : Person ID) : Bool :=
  p.parents.isEmpty || p.parents.all fun q => !containsKey fd q

/-- Phase 2 (tree.py lines 133-136): the initial roots, in mapping order. -/
def initialRoots (fd : FamilyData ID) : List ID :=
  (fd.filter fun e => isInitialRoot fd e.2).map Prod.fst

/-- The body of the seeding loop of tree.py lines 138-141: walk the root
list, assigning `base_level` and enqueueing each root still unassigned. -/
def seedLoop (fd : FamilyData ID) (queue : List ID) : List ID → FamilyData ID × List ID
  | [] => (fd, queue)
  | r :: rest =>
    if getLevel fd r = none then seedLoop (setLevel fd r base_level) (queue ++ [r]) rest
    else seedLoop fd queue rest

/-- Phase 3 (tree.py lines 138-141): seed each root with `base_level`
and enqueue it, skipping roots already assigned. -/
def seedRoots (fd : FamilyData ID) : FamilyData ID × List ID :=
  seedLoop fd [] (initialRoots fd)

/-- The child loop of tree.py lines 148-155: for each child identifier
present in the mapping, assign `L+1` and enqueue if unassigned, else
update to the minimum of the current level and `L+1`. -/
def relaxChildren (fd : FamilyData ID) (queue : List ID) (L : Int) :
    List ID → FamilyData ID × List ID
  | [] => (fd, queue)
  | c :: rest =>
    if containsKey fd c then
      match getLevel fd c with
      | none => relaxChildren (setLevel fd c (L + 1)) (queue ++ [c]) L rest
      | some lv => relaxChildren (setLevel fd c (min lv (L + 1))) queue L rest
    else relaxChildren fd queue L rest

/-- The parent loop of tree.py lines 157-165: for each parent identifier
present in the mapping, assign `L-1` and enqueue if unassigned, else
update to the maximum of the current level and `L-1`. -/
def relaxParents (fd : FamilyData ID) (queue : List ID) (L : Int) :
    List ID → FamilyData ID × List ID
  | [] => (fd, queue)
  | a :: rest =>
    if containsKey fd a then
      match getLevel fd a with
      | none => relaxParents (setLevel fd a (L - 1)) (queue ++ [a]) L rest
      | some lv => relaxParents (setLevel fd a (max lv (L - 1))) queue L rest
    else relaxParents fd queue L rest

/-- One iteration of the `while queue:` body (tree.py lines 144-165):
read the dequeued person's level, relax its children, then its parents.
The `.getD 0` defaults are dead code on reachable states: a dequeued
identifier is always present and assigned (only assigned identifiers are
enqueued); Python reads the same values without a default. -/
def bfsStep (fd : FamilyData ID) (current : ID) (queue : List ID) :
    FamilyData ID × List ID :=
  let L := (getLevel fd current).getD 0
  let st1 := relaxChildren fd queue L (((getPerson fd current).map Person.children).getD [])
  relaxParents st1.1 st1.2 L (((getPerson st1.1 current).map Person.parents).getD [])

/-- Phase 4 (tree.py lines 143-165): the FIFO worklist loop, with an
explicit iteration budget.  The budget case is unreachable when the
budget is at least `noneCount fd + queue.length` (theorem for C2), which
holds of the seeded state with budget = number of people. -/
def bfsLoop : Nat → FamilyData ID → List ID → FamilyData ID × List ID
  | _, fd, [] => (fd, [])
  | 0, fd, q => (fd, q)
  | fuel + 1, fd, current :: rest =>
    let st := bfsStep fd current rest
    bfsLoop fuel st.1 st.2

/-- Phase 5 (tree.py lines 167-170): give every still-unassigned person
the base level. -/
def fillDefaults (fd : FamilyData ID) : FamilyData ID :=
  mapPersons (fun p => if p.level = none then { p with level := some base_level } else p) fd

/-- The level values, as read by `min(data['level'] for ...)`; every
level is assigned at this point (the fallback has just run), so the
`.getD 0` default is dead code. -/
def levelValues (fd : FamilyData ID) : List Int :=
  fd.map fun e => e.2.level.getD 0

/-- tree.py line 173: the minimum level, guarded to `0` on an empty
mapping. -/
def minLevel (fd : FamilyData ID) : Int :=
  match levelValues fd with
  | [] => 0
  | l :: ls => ls.foldl min l

/-- Phase 6 (tree.py lines 172-175): subtract the minimum level from
every person's level. -/
def normalizeLevels (fd : FamilyData ID) : FamilyData ID :=
  let m := minLevel fd
  mapPersons (fun p => { p with level := p.level.map (fun l => l - m) }) fd

/-- The mapping as it stands when the worklist loop has finished
(phases 1-4). -/
def afterBFS (fd : FamilyData ID) : FamilyData ID :=
  (bfsLoop fd.length (seedRoots (resetLevels fd)).1 (seedRoots (resetLevels fd)).2).1

/-- `calculate_generation_levels` (tree.py lines 121-177): early return
on the empty mapping, then the six phases in source order. -/
def calculate_generation_levels (fd : FamilyData ID) : FamilyData ID :=
  if fd.isEmpty then fd
  else normalizeLevels (fillDefaults (afterBFS fd))

/-- The number of entries whose level is unassigned. -/
def noneCount (fd : FamilyData ID) : Nat :=
  fd.countP fun e => e.2.level.isNone

/-- The reference-scrubbing pass of the delete handler (tree.py lines
754-769): every record other than the deleted one drops the deleted
identifier from `children` and `parents` (Python `list.remove`, i.e.
first occurrence) and clears a matching `married_to`/`divorced_from`. -/
def scrubPerson (d : ID) (p : Person ID) : Person ID :=
  { p with
    children := if d ∈ p.children then p.children.erase d else p.children
    parents := if d ∈ p.parents then p.parents.erase d else p.parents
    married_to := if p.married_to = some d then none else p.married_to
    divorced_from := if p.divorced_from = some d then none else p.divorced_from }

/-- tree.py lines 754-771: scrub inbound references to `d` from every
other record, then delete `d`'s own record. -/
def scrubAndRemove (fd : FamilyData ID) (d : ID) : FamilyData ID :=
  (fd.map fun e => if e.1 = d then e else (e.1, scrubPerson d e.2)).filter
    fun e => !decide (e.1 = d)

/-- The confirmed-delete path of `delete_person_form` (tree.py lines
751-774): scrub references, remove the record, recompute levels. -/
def delete_person (fd : FamilyData ID) (d : ID) : FamilyData ID :=
  calculate_generation_levels (scrubAndRemove fd d)

/-! ### Basic lemmas about the mapping operations -/

theorem getPerson_cons (e : ID × Person ID) (fd : FamilyData ID) (i : ID) :
    getPerson (e :: fd) i = if e.1 = i then some e.2 else getPerson fd i := by
  by_cases h : e.1 = i
  · simp [getPerson, List.find?_cons_of_pos, h]
  · simp [getPerson, List.find?_cons_of_neg, h]

theorem mapPersons_cons (g : Person ID → Person ID) (e : ID × Person ID) (fd : FamilyData ID) :
    mapPersons g (e :: fd) = (e.1, g e.2) :: mapPersons g fd := rfl

theorem getPerson_mapPersons (g : Person ID → Person ID) (fd : FamilyData ID) (i : ID) :
    getPerson (mapPersons g fd) i = (getPerson fd i).map g := by
  induction fd with
  | nil => rfl
  | cons e rest ih =>
    rw [mapPersons_cons, getPerson_cons, getPerson_cons]
    by_cases h : e.1 = i <;> simp [h, ih]

theorem keys_mapPersons (g : Person ID → Person ID) (fd : FamilyData ID) :
    keys (mapPersons g fd) = keys fd := by
  simp [keys, mapPersons, List.map_map, Function.comp_def]

theorem length_mapPersons (g : Person ID → Person ID) (fd : FamilyData ID) :
    (mapPersons g fd).length = fd.length := by
  simp [mapPersons]

theorem setLevel_cons (e : ID × Person ID) (fd : FamilyData ID) (j : ID) (l : Int) :
    setLevel (e :: fd) j l =
      (if e.1 = j then (e.1, { e.2 with level := some l }) else e) :: setLevel fd j l := by
  by_cases h : e.1 = j <;> simp [setLevel, h]

theorem keys_setLevel (fd : FamilyData ID) (j : ID) (l : Int) :
    keys (setLevel fd j l) = keys fd := by
  unfold keys setLevel
  rw [List.map_map]
  apply List.map_congr_left
  intro e _
  by_cases h : e.1 = j <;> simp [h]

theorem getPerson_setLevel (fd : FamilyData ID) (j : ID) (l : Int) (i : ID) :
    getPerson (setLevel fd j l) i =
      if i = j then (getPerson fd i).map (fun p => { p with level := some l })
      else getPerson fd i := by
  induction fd with
  | nil => by_cases h : i = j <;> simp [getPerson, setLevel, h]
  | cons e rest ih =>
    rw [setLevel_cons, getPerson_cons, getPerson_cons]
    by_cases hij : i = j
    · subst hij
      by_cases hei : e.1 = i <;> simp [hei, ih]
    · have hji : ¬ j = i := fun h => hij h.symm
      by_cases hei : e.1 = i
      · have hej : ¬ e.1 = j := fun h => hij (hei.symm.trans h)
        simp [hei, hej, hij]
      · by_cases hej : e.1 = j <;> simp [hej, hei, hij, hji, ih]

theorem getLevel_eq (fd : FamilyData ID) (i : ID) :
    getLevel fd i = (getPerson fd i).bind Person.level := by
  unfold getLevel
  cases getPerson fd i <;> rfl

theorem getLevel_setLevel_ne (fd : FamilyData ID) (j : ID) (l : Int) (i : ID) (h : i ≠ j) :
    getLevel (setLevel fd j l) i = getLevel fd i := by
  rw [getLevel_eq, getLevel_eq, getPerson_setLevel, if_neg h]

theorem containsKey_iff (fd : FamilyData ID) (i : ID) :
    containsKey fd i = true ↔ i ∈ keys fd := by
  simp only [containsKey, keys, List.any_eq_true, decide_eq_true_eq, List.mem_map]

theorem keys_cons (e : ID × Person ID) (fd : FamilyData ID) :
    keys (e :: fd) = e.1 :: keys fd := rfl

theorem getPerson_isSome_iff (fd : FamilyData ID) (i : ID) :
    (getPerson fd i).isSome = true ↔ containsKey fd i = true := by
  rw [containsKey_iff]
  induction fd with
  | nil => simp [getPerson, keys]
  | cons e rest ih =>
    rw [getPerson_cons]
    by_cases h : e.1 = i
    · simp [keys, h]
    · rw [if_neg h, ih, keys_cons, List.mem_cons]
      constructor
      · exact Or.inr
      · rintro (rfl | hm)
        · exact absurd rfl h
        · exact hm

theorem getPerson_mem (fd : FamilyData ID) (i : ID) (p : Person ID)
    (h : getPerson fd i = some p) : (i, p) ∈ fd := by
  induction fd with
  | nil => simp [getPerson] at h
  | cons e rest ih =>
    rw [getPerson_cons] at h
    by_cases he : e.1 = i
    · rw [if_pos he] at h
      injection h with h2
      have hip : (i, p) = e := by
        rw [← he, ← h2]
      rw [hip]
      exact List.mem_cons_self e rest
    · rw [if_neg he] at h
      exact List.mem_cons_of_mem _ (ih h)

theorem getPerson_of_mem_nodup (fd : FamilyData ID) (i : ID) (p : Person ID)
    (hnd : (keys fd).Nodup) (h : (i, p) ∈ fd) : getPerson fd i = some p := by
  induction fd with
  | nil => simp at h
  | cons e rest ih =>
    rw [keys_cons] at hnd
    have hnd1 := (List.nodup_cons.mp hnd).1
    have hnd2 := (List.nodup_cons.mp hnd).2
    rw [getPerson_cons]
    rcases List.mem_cons.mp h with h1 | h1
    · subst h1; simp
    · have hi : i ∈ keys rest := by
        simp only [keys, List.mem_map]
        exact ⟨(i, p), h1, rfl⟩
      have hne : e.1 ≠ i := fun he => hnd1 (he ▸ hi)
      rw [if_neg hne]
      exact ih hnd2 h1

/-! ### Shape preservation: every phase leaves everything but levels alone -/

theorem stripLevel_stripLevel (p : Person ID) : stripLevel (stripLevel p) = stripLevel p := rfl

theorem mapPersons_mapPersons (g g' : Person ID → Person ID) (fd : FamilyData ID) :
    mapPersons g (mapPersons g' fd) = mapPersons (fun p => g (g' p)) fd := by
  simp [mapPersons, List.map_map, Function.comp_def]

theorem resetLevels_resetLevels (fd : FamilyData ID) :
    resetLevels (resetLevels fd) = resetLevels fd := by
  rw [resetLevels, resetLevels, mapPersons_mapPersons]
  rfl

theorem resetLevels_setLevel (fd : FamilyData ID) (j : ID) (l : Int) :
    resetLevels (setLevel fd j l) = resetLevels fd := by
  induction fd with
  | nil => rfl
  | cons e rest ih =>
    rw [setLevel_cons, resetLevels, mapPersons_cons, resetLevels, mapPersons_cons]
    have ih2 : mapPersons stripLevel (setLevel rest j l) = mapPersons stripLevel rest := ih
    rw [ih2]
    by_cases h : e.1 = j
    · rw [if_pos h]; rfl
    · rw [if_neg h]

theorem resetLevels_relaxChildren (cs : List ID) :
    ∀ (fd : FamilyData ID) (q : List ID) (L : Int),
      resetLevels (relaxChildren fd q L cs).1 = resetLevels fd := by
  induction cs with
  | nil => intro fd q L; rfl
  | cons c rest ih =>
    intro fd q L
    rw [relaxChildren]
    split
    · split <;> rw [ih, resetLevels_setLevel]
    · exact ih fd q L

theorem resetLevels_relaxParents (as : List ID) :
    ∀ (fd : FamilyData ID) (q : List ID) (L : Int),
      resetLevels (relaxParents fd q L as).1 = resetLevels fd := by
  induction as with
  | nil => intro fd q L; rfl
  | cons a rest ih =>
    intro fd q L
    rw [relaxParents]
    split
    · split <;> rw [ih, resetLevels_setLevel]
    · exact ih fd q L

theorem resetLevels_bfsStep (fd : FamilyData ID) (c : ID) (q : List ID) :
    resetLevels (bfsStep fd c q).1 = resetLevels fd := by
  unfold bfsStep
  rw [resetLevels_relaxParents, resetLevels_relaxChildren]

theorem resetLevels_bfsLoop (fuel : Nat) :
    ∀ (fd : FamilyData ID) (q : List ID),
      resetLevels (bfsLoop fuel fd q).1 = resetLevels fd := by
  induction fuel with
  | zero => intro fd q; cases q <;> rfl
  | succ n ih =>
    intro fd q
    cases q with
    | nil => rfl
    | cons c rest => rw [bfsLoop, ih, resetLevels_bfsStep]

theorem resetLevels_seedLoop (roots : List ID) :
    ∀ (fd : FamilyData ID) (q : List ID),
      resetLevels (seedLoop fd q roots).1 = resetLevels fd := by
  induction roots with
  | nil => intro fd q; rfl
  | cons r rest ih =>
    intro fd q
    rw [seedLoop]
    split
    · rw [ih, resetLevels_setLevel]
    · exact ih fd q

theorem resetLevels_fillDefaults (fd : FamilyData ID) :
    resetLevels (fillDefaults fd) = resetLevels fd := by
  rw [resetLevels, fillDefaults, mapPersons_mapPersons, resetLevels]
  congr 1
  funext p
  by_cases h : p.level = none <;> simp [h, stripLevel]

theorem resetLevels_normalizeLevels (fd : FamilyData ID) :
    resetLevels (normalizeLevels fd) = resetLevels fd := by
  rw [resetLevels, normalizeLevels, mapPersons_mapPersons, resetLevels]
  rfl

theorem resetLevels_afterBFS (fd : FamilyData ID) :
    resetLevels (afterBFS fd) = resetLevels fd := by
  rw [afterBFS, resetLevels_bfsLoop, seedRoots, resetLevels_seedLoop, resetLevels_resetLevels]

theorem resetLevels_calc (fd : FamilyData ID) :
    resetLevels (calculate_generation_levels fd) = resetLevels fd := by
  unfold calculate_generation_levels
  split
  · rfl
  · rw [resetLevels_normalizeLevels, resetLevels_fillDefaults, resetLevels_afterBFS]

theorem length_resetLevels (fd : FamilyData ID) : (resetLevels fd).length = fd.length :=
  length_mapPersons _ fd

theorem length_calc (fd : FamilyData ID) :
    (calculate_generation_levels fd).length = fd.length := by
  rw [← length_resetLevels (calculate_generation_levels fd), resetLevels_calc,
    length_resetLevels]

theorem keys_resetLevels (fd : FamilyData ID) : keys (resetLevels fd) = keys fd :=
  keys_mapPersons _ fd

theorem keys_calc (fd : FamilyData ID) :
    keys (calculate_generation_levels fd) = keys fd := by
  rw [← keys_resetLevels (calculate_generation_levels fd), resetLevels_calc, keys_resetLevels]

theorem isEmpty_calc (fd : FamilyData ID) :
    (calculate_generation_levels fd).isEmpty = fd.isEmpty := by
  by_cases h : fd.isEmpty = true
  · have : fd = [] := List.isEmpty_iff.mp h
    subst this
    rfl
  · have h1 : ¬ calculate_generation_levels fd = [] := by
      intro hc
      have := length_calc fd
      rw [hc] at this
      apply h
      rw [List.isEmpty_iff]
      exact List.length_eq_zero.mp this.symm
    have h2 : ¬ fd = [] := fun hc => h (List.isEmpty_iff.mpr hc)
    rw [Bool.eq_iff_iff, List.isEmpty_iff, List.isEmpty_iff]
    exact iff_of_false h1 h2

theorem calc_eq_of_nonempty (fd : FamilyData ID) (h : ¬ fd.isEmpty = true) :
    calculate_generation_levels fd = normalizeLevels (fillDefaults (afterBFS fd)) := by
  unfold calculate_generation_levels
  rw [if_neg h]

/-- C10: on the empty mapping `calculate_generation_levels` returns the
empty mapping (the early return of tree.py line 122-123 fires), and the
normalization step's minimum is guarded to `0` on an empty mapping, so
the empty-sequence `min` is never evaluated. -/
theorem c10_empty_mapping (ID : Type) [DecidableEq ID] :
    calculate_generation_levels ([] : FamilyData ID) = [] ∧
    minLevel ([] : FamilyData ID) = 0 :=
  ⟨rfl, rfl⟩

/-- C8: `calculate_generation_levels` is idempotent — running it again
on its own output (levels being reset at the start of each run) returns
exactly the same mapping. -/
theorem c8_idempotent (fd : FamilyData ID) :
    calculate_generation_levels (calculate_generation_levels fd) =
      calculate_generation_levels fd := by
  by_cases h : fd.isEmpty = true
  · have h1 : calculate_generation_levels fd = fd := by
      unfold calculate_generation_levels
      rw [if_pos h]
    rw [h1, h1]
  · have hf : ¬ (calculate_generation_levels fd).isEmpty = true := by
      rw [isEmpty_calc]; exact h
    have hstep : afterBFS (calculate_generation_levels fd) = afterBFS fd := by
      unfold afterBFS
      rw [length_calc, resetLevels_calc]
    rw [calc_eq_of_nonempty _ hf, hstep, calc_eq_of_nonempty _ h]

theorem level_isSome_calc (fd : FamilyData ID) (i : ID) (p : Person ID)
    (hne : ¬ fd.isEmpty = true)
    (h : getPerson (calculate_generation_levels fd) i = some p) :
    p.level.isSome = true := by
  rw [calc_eq_of_nonempty _ hne] at h
  simp only [normalizeLevels, fillDefaults, getPerson_mapPersons] at h
  cases hq : getPerson (afterBFS fd) i with
  | none => rw [hq] at h; simp at h
  | some q =>
    rw [hq] at h
    simp only [Option.map_some'] at h
    injection h with h2
    rw [← h2]
    by_cases hql : q.level = none
    · simp [hql]
    · cases hq2 : q.level with
      | none => exact absurd hq2 hql
      | some lv => simp [hql, hq2]

/-- C1: for every input mapping the returned mapping has exactly the
input's identifiers, and every identifier present in the input is mapped
to a record with a non-null integer level; the function is total (never
raises), including on dangling references and cycles. -/
theorem c1_complete_levels (fd : FamilyData ID) :
    keys (calculate_generation_levels fd) = keys fd ∧
    ∀ i, containsKey fd i = true →
      ∃ p, getPerson (calculate_generation_levels fd) i = some p ∧
        p.level.isSome = true := by
  refine ⟨keys_calc fd, fun i hi => ?_⟩
  have hne : ¬ fd.isEmpty = true := by
    intro he
    rw [List.isEmpty_iff] at he
    subst he
    simp [containsKey] at hi
  have hck : containsKey (calculate_generation_levels fd) i = true := by
    rw [containsKey_iff, keys_calc, ← containsKey_iff]
    exact hi
  have hs := (getPerson_isSome_iff (calculate_generation_levels fd) i).mpr hck
  cases hp : getPerson (calculate_generation_levels fd) i with
  | none => rw [hp] at hs; simp at hs
  | some p => exact ⟨p, rfl, level_isSome_calc fd i p hne hp⟩

/-- A one-person dataset used to witness C1. -/
def soloFam : FamilyData Nat := [(1, {})]

/-- Witness for C1 at a concrete input. -/
theorem c1_complete_levels_witness :
    keys (calculate_generation_levels soloFam) = keys soloFam ∧
    (∃ p, getPerson (calculate_generation_levels soloFam) 1 = some p ∧
      p.level.isSome = true) :=
  ⟨(c1_complete_levels soloFam).1, (c1_complete_levels soloFam).2 1 (by decide)⟩

/-! ### Termination of the worklist loop (claim C2)

The measure `noneCount fd + queue.length` decreases by at least one per
iteration: the dequeue removes one element, and every enqueue is paired
with one entry's single transition from unassigned to assigned. -/

theorem noneCount_cons (e : ID × Person ID) (fd : FamilyData ID) :
    noneCount (e :: fd) = noneCount fd + if e.2.level.isNone then 1 else 0 :=
  List.countP_cons _ e fd

theorem noneCount_setLevel_le (fd : FamilyData ID) (j : ID) (l : Int) :
    noneCount (setLevel fd j l) ≤ noneCount fd := by
  induction fd with
  | nil => exact Nat.le_refl 0
  | cons e rest ih =>
    rw [setLevel_cons, noneCount_cons, noneCount_cons]
    by_cases h : e.1 = j
    · rw [if_pos h]
      have h0 : ((e.1, { e.2 with level := some l }) : ID × Person ID).2.level.isNone = false :=
        rfl
      rw [h0, if_neg Bool.false_ne_true]
      split <;> omega
    · rw [if_neg h]
      split <;> omega

theorem noneCount_setLevel_lt (fd : FamilyData ID) (j : ID) (l : Int)
    (hck : containsKey fd j = true) (hnone : getLevel fd j = none) :
    noneCount (setLevel fd j l) < noneCount fd := by
  induction fd with
  | nil => simp [containsKey] at hck
  | cons e rest ih =>
    rw [setLevel_cons, noneCount_cons, noneCount_cons]
    by_cases h : e.1 = j
    · rw [if_pos h]
      have h0 : ((e.1, { e.2 with level := some l }) : ID × Person ID).2.level.isNone = false :=
        rfl
      rw [h0, if_neg Bool.false_ne_true]
      have hl : e.2.level = none := by
        rw [getLevel_eq, getPerson_cons, if_pos h] at hnone
        simpa using hnone
      have h1 : e.2.level.isNone = true := by rw [hl]; rfl
      rw [h1, if_pos rfl]
      have := noneCount_setLevel_le rest j l
      omega
    · rw [if_neg h]
      have hck2 : containsKey rest j = true := by
        simp only [containsKey, List.any_cons, Bool.or_eq_true, decide_eq_true_eq] at hck ⊢
        rcases hck with h1 | h1
        · exact absurd h1 h
        · exact h1
      have hnone2 : getLevel rest j = none := by
        rw [getLevel_eq, getPerson_cons, if_neg h] at hnone
        rw [getLevel_eq]
        exact hnone
      have := ih hck2 hnone2
      split <;> omega

theorem measure_relaxChildren (cs : List ID) :
    ∀ (fd : FamilyData ID) (q : List ID) (L : Int),
      noneCount (relaxChildren fd q L cs).1 + (relaxChildren fd q L cs).2.length ≤
        noneCount fd + q.length := by
  induction cs with
  | nil => intro fd q L; exact Nat.le_refl _
  | cons c rest ih =>
    intro fd q L
    rw [relaxChildren]
    split
    · rename_i hck
      split
      · rename_i hnone
        have h1 := noneCount_setLevel_lt fd c (L + 1) hck hnone
        have h2 := ih (setLevel fd c (L + 1)) (q ++ [c]) L
        rw [List.length_append, List.length_cons, List.length_nil] at h2
        omega
      · rename_i lv hlv
        have h1 := noneCount_setLevel_le fd c (min lv (L + 1))
        have h2 := ih (setLevel fd c (min lv (L + 1))) q L
        omega
    · exact ih fd q L

theorem measure_relaxParents (as : List ID) :
    ∀ (fd : FamilyData ID) (q : List ID) (L : Int),
      noneCount (relaxParents fd q L as).1 + (relaxParents fd q L as).2.length ≤
        noneCount fd + q.length := by
  induction as with
  | nil => intro fd q L; exact Nat.le_refl _
  | cons a rest ih =>
    intro fd q L
    rw [relaxParents]
    split
    · rename_i hck
      split
      · rename_i hnone
        have h1 := noneCount_setLevel_lt fd a (L - 1) hck hnone
        have h2 := ih (setLevel fd a (L - 1)) (q ++ [a]) L
        rw [List.length_append, List.length_cons, List.length_nil] at h2
        omega
      · rename_i lv hlv
        have h1 := noneCount_setLevel_le fd a (max lv (L - 1))
        have h2 := ih (setLevel fd a (max lv (L - 1))) q L
        omega
    · exact ih fd q L

theorem measure_bfsStep (fd : FamilyData ID) (c : ID) (rest : List ID) :
    noneCount (bfsStep fd c rest).1 + (bfsStep fd c rest).2.length ≤
      noneCount fd + rest.length := by
  unfold bfsStep
  exact le_trans (measure_relaxParents _ _ _ _) (measure_relaxChildren _ _ _ _)

theorem bfsLoop_nil (fuel : Nat) (fd : FamilyData ID) : bfsLoop fuel fd [] = (fd, []) := by
  cases fuel <;> rfl

theorem bfsLoop_queue_empty (fuel : Nat) :
    ∀ (fd : FamilyData ID) (q : List ID),
      noneCount fd + q.length ≤ fuel → (bfsLoop fuel fd q).2 = [] := by
  induction fuel with
  | zero =>
    intro fd q h
    have hq : q = [] := List.length_eq_zero.mp (by omega)
    subst hq
    rfl
  | succ n ih =>
    intro fd q h
    cases q with
    | nil => rfl
    | cons c rest =>
      rw [bfsLoop]
      apply ih
      have := measure_bfsStep fd c rest
      simp only [List.length_cons] at h
      omega

theorem bfsLoop_fuel_stable (fuel : Nat) :
    ∀ (fd : FamilyData ID) (q : List ID) (k : Nat),
      (bfsLoop fuel fd q).2 = [] →
      bfsLoop (fuel + k) fd q = bfsLoop fuel fd q := by
  induction fuel with
  | zero =>
    intro fd q k h
    cases q with
    | nil => rw [bfsLoop_nil, bfsLoop_nil]
    | cons c rest =>
      have : bfsLoop 0 fd (c :: rest) = (fd, c :: rest) := rfl
      rw [this] at h
      simp at h
  | succ n ih =>
    intro fd q k h
    cases q with
    | nil => rw [bfsLoop_nil, bfsLoop_nil]
    | cons c rest =>
      rw [bfsLoop] at h
      have hk : n + 1 + k = (n + k) + 1 := by omega
      rw [hk, bfsLoop, bfsLoop]
      exact ih _ _ k h

theorem containsKey_setLevel (fd : FamilyData ID) (j : ID) (l : Int) (i : ID) :
    containsKey (setLevel fd j l) i = containsKey fd i := by
  rw [Bool.eq_iff_iff, containsKey_iff, containsKey_iff, keys_setLevel]

theorem initialRoots_mem_containsKey (fd : FamilyData ID) (r : ID)
    (h : r ∈ initialRoots fd) : containsKey fd r = true := by
  rw [containsKey_iff]
  unfold initialRoots at h
  rcases List.mem_map.mp h with ⟨e, he, rfl⟩
  exact List.mem_map.mpr ⟨e, (List.mem_filter.mp he).1, rfl⟩

theorem measure_seedLoop (roots : List ID) :
    ∀ (fd : FamilyData ID) (q : List ID),
      (∀ r ∈ roots, containsKey fd r = true) →
      noneCount (seedLoop fd q roots).1 + (seedLoop fd q roots).2.length ≤
        noneCount fd + q.length := by
  induction roots with
  | nil => intro fd q _; exact Nat.le_refl _
  | cons r rest ih =>
    intro fd q hall
    rw [seedLoop]
    split
    · rename_i hnone
      have hck := hall r (List.mem_cons_self r rest)
      have h1 := noneCount_setLevel_lt fd r base_level hck hnone
      have h2 := ih (setLevel fd r base_level) (q ++ [r]) ?_
      · rw [List.length_append, List.length_cons, List.length_nil] at h2
        omega
      · intro r2 hr2
        rw [containsKey_setLevel]
        exact hall r2 (List.mem_cons_of_mem _ hr2)
    · exact ih fd q fun r2 hr2 => hall r2 (List.mem_cons_of_mem _ hr2)

theorem noneCount_resetLevels (fd : FamilyData ID) :
    noneCount (resetLevels fd) = fd.length := by
  induction fd with
  | nil => rfl
  | cons e rest ih =>
    rw [resetLevels, mapPersons_cons, noneCount_cons]
    have ih2 : noneCount (mapPersons stripLevel rest) = rest.length := ih
    have h0 : ((e.1, stripLevel e.2) : ID × Person ID).2.level.isNone = true := rfl
    rw [h0, if_pos rfl, ih2, List.length_cons]

/-- C2: the worklist loop of `calculate_generation_levels` terminates on
every input — starting from any seeded state, the queue is empty after
at most one iteration per person (each identifier is enqueued only on
its single transition from unassigned to assigned), and granting the
loop any extra iteration budget changes nothing. -/
theorem c2_loop_terminates (fd : FamilyData ID) :
    (bfsLoop fd.length (seedRoots (resetLevels fd)).1 (seedRoots (resetLevels fd)).2).2 = [] ∧
    ∀ k, bfsLoop (fd.length + k) (seedRoots (resetLevels fd)).1
        (seedRoots (resetLevels fd)).2 =
      bfsLoop fd.length (seedRoots (resetLevels fd)).1 (seedRoots (resetLevels fd)).2 := by
  have hme : noneCount (seedRoots (resetLevels fd)).1 +
      (seedRoots (resetLevels fd)).2.length ≤ fd.length := by
    rw [seedRoots]
    have h1 := measure_seedLoop (initialRoots (resetLevels fd)) (resetLevels fd) []
      (fun r hr => initialRoots_mem_containsKey _ r hr)
    have h2 := noneCount_resetLevels fd
    simp only [List.length_nil] at h1
    omega
  have h1 := bfsLoop_queue_empty fd.length _ _ hme
  exact ⟨h1, fun k => bfsLoop_fuel_stable fd.length _ _ k h1⟩

/-! ### Normalization (claim C4) -/

theorem levelValues_length (fd : FamilyData ID) :
    (levelValues fd).length = fd.length := by
  simp [levelValues]

theorem foldl_min_sub (ls : List Int) : ∀ (a m : Int),
    (ls.map (fun x => x - m)).foldl min (a - m) = ls.foldl min a - m := by
  induction ls with
  | nil => intro a m; rfl
  | cons b rest ih =>
    intro a m
    rw [List.map_cons, List.foldl_cons, List.foldl_cons, min_sub_sub_right, ih]

theorem foldl_min_le_init (ls : List Int) : ∀ a : Int, ls.foldl min a ≤ a := by
  induction ls with
  | nil => intro a; exact le_refl a
  | cons b rest ih =>
    intro a
    rw [List.foldl_cons]
    exact le_trans (ih (min a b)) (min_le_left a b)

theorem foldl_min_le_mem (ls : List Int) : ∀ (a b : Int), b ∈ ls → ls.foldl min a ≤ b := by
  induction ls with
  | nil => intro a b h; simp at h
  | cons c rest ih =>
    intro a b h
    rw [List.foldl_cons]
    rcases List.mem_cons.mp h with rfl | h2
    · exact le_trans (foldl_min_le_init rest (min a b)) (min_le_right a b)
    · exact ih (min a c) b h2

theorem foldl_min_attained (ls : List Int) :
    ∀ a : Int, ls.foldl min a = a ∨ ls.foldl min a ∈ ls := by
  induction ls with
  | nil => intro a; exact Or.inl rfl
  | cons b rest ih =>
    intro a
    rw [List.foldl_cons]
    rcases ih (min a b) with h | h
    · rcases le_total a b with hab | hab
      · left; rw [h, min_eq_left hab]
      · right; rw [h, min_eq_right hab]; exact List.mem_cons_self b rest
    · right; exact List.mem_cons_of_mem b h

theorem levelValues_normalize (fd : FamilyData ID)
    (h : ∀ e ∈ fd, e.2.level.isSome = true) :
    levelValues (normalizeLevels fd) =
      (levelValues fd).map (fun x => x - minLevel fd) := by
  simp only [normalizeLevels, levelValues, mapPersons, List.map_map]
  apply List.map_congr_left
  intro e he
  have hs := h e he
  cases hl : e.2.level with
  | none => rw [hl] at hs; simp at hs
  | some l => simp [Function.comp, hl]

theorem levelIsSome_fillDefaults (fd : FamilyData ID) :
    ∀ e ∈ fillDefaults fd, e.2.level.isSome = true := by
  intro e he
  rw [fillDefaults, mapPersons] at he
  rcases List.mem_map.mp he with ⟨e0, _, rfl⟩
  cases hl : e0.2.level with
  | none => simp [hl]
  | some l => simp [hl]

theorem minLevel_le_mem (fd : FamilyData ID) (v : Int) (hv : v ∈ levelValues fd) :
    minLevel fd ≤ v := by
  cases h : levelValues fd with
  | nil => rw [h] at hv; simp at hv
  | cons a ls =>
    have hm : minLevel fd = ls.foldl min a := by unfold minLevel; rw [h]
    rw [h] at hv
    rw [hm]
    rcases List.mem_cons.mp hv with rfl | h2
    · exact foldl_min_le_init ls v
    · exact foldl_min_le_mem ls a v h2

theorem minLevel_attained (fd : FamilyData ID) (hne : levelValues fd ≠ []) :
    minLevel fd ∈ levelValues fd := by
  cases h : levelValues fd with
  | nil => exact absurd h hne
  | cons a ls =>
    have hm : minLevel fd = ls.foldl min a := by unfold minLevel; rw [h]
    rw [hm]
    rcases foldl_min_attained ls a with h2 | h2
    · rw [h2]; exact List.mem_cons_self a ls
    · exact List.mem_cons_of_mem a h2

theorem minLevel_normalize_eq_zero (fd : FamilyData ID) (hne : fd ≠ [])
    (h : ∀ e ∈ fd, e.2.level.isSome = true) :
    minLevel (normalizeLevels fd) = 0 := by
  have hl := levelValues_normalize fd h
  cases hv : levelValues fd with
  | nil =>
    have : fd.length = 0 := by rw [← levelValues_length fd, hv]; rfl
    exact absurd (List.length_eq_zero.mp this) hne
  | cons a ls =>
    have h2 : levelValues (normalizeLevels fd) =
        (a - minLevel fd) :: ls.map (fun x => x - minLevel fd) := by
      rw [hl, hv, List.map_cons]
    unfold minLevel
    rw [h2]
    show (ls.map (fun x => x - minLevel fd)).foldl min (a - minLevel fd) = 0
    rw [foldl_min_sub]
    have hm : minLevel fd = ls.foldl min a := by unfold minLevel; rw [hv]
    rw [← hm]
    exact sub_self _

theorem length_afterBFS (fd : FamilyData ID) : (afterBFS fd).length = fd.length := by
  rw [← length_resetLevels (afterBFS fd), resetLevels_afterBFS, length_resetLevels]

theorem mem_calc_level_isSome (fd : FamilyData ID) (hne : ¬ fd.isEmpty = true) :
    ∀ e ∈ calculate_generation_levels fd, e.2.level.isSome = true := by
  intro e he
  rw [calc_eq_of_nonempty fd hne] at he
  rw [normalizeLevels, mapPersons] at he
  rcases List.mem_map.mp he with ⟨e0, he0, rfl⟩
  have hs := levelIsSome_fillDefaults (afterBFS fd) e0 he0
  cases hl : e0.2.level with
  | none => rw [hl] at hs; simp at hs
  | some l => simp [hl]

/-- C4: for every non-empty input mapping, the minimum of the levels
returned by `calculate_generation_levels` is exactly `0`: every returned
level is a non-negative integer, and level `0` is attained. -/
theorem c4_min_level_zero (fd : FamilyData ID) (hne : fd ≠ []) :
    minLevel (calculate_generation_levels fd) = 0 ∧
    (∀ e ∈ calculate_generation_levels fd, ∃ l, e.2.level = some l ∧ 0 ≤ l) ∧
    ∃ e ∈ calculate_generation_levels fd, e.2.level = some 0 := by
  have hne2 : ¬ fd.isEmpty = true := fun h => hne (List.isEmpty_iff.mp h)
  have hXne : fillDefaults (afterBFS fd) ≠ [] := by
    intro h
    apply hne
    apply List.length_eq_zero.mp
    have := congrArg List.length h
    rw [fillDefaults, length_mapPersons, length_afterBFS] at this
    exact this
  have hmin : minLevel (calculate_generation_levels fd) = 0 := by
    rw [calc_eq_of_nonempty fd hne2]
    exact minLevel_normalize_eq_zero _ hXne (levelIsSome_fillDefaults _)
  refine ⟨hmin, fun e he => ?_, ?_⟩
  · have hs := mem_calc_level_isSome fd hne2 e he
    cases hl : e.2.level with
    | none => rw [hl] at hs; simp at hs
    | some l =>
      refine ⟨l, rfl, ?_⟩
      have hv : l ∈ levelValues (calculate_generation_levels fd) := by
        rw [levelValues]
        refine List.mem_map.mpr ⟨e, he, ?_⟩
        rw [hl]
        rfl
      have := minLevel_le_mem _ l hv
      omega
  · have hvne : levelValues (calculate_generation_levels fd) ≠ [] := by
      intro h
      apply hne
      apply List.length_eq_zero.mp
      have := congrArg List.length h
      rw [levelValues_length, length_calc] at this
      exact this
    have hmem := minLevel_attained _ hvne
    rw [hmin] at hmem
    rw [levelValues] at hmem
    rcases List.mem_map.mp hmem with ⟨e, he, hval⟩
    refine ⟨e, he, ?_⟩
    have hs := mem_calc_level_isSome fd hne2 e he
    cases hl : e.2.level with
    | none => rw [hl] at hs; simp at hs
    | some l =>
      rw [hl] at hval
      simp only [Option.getD_some] at hval
      rw [hval]

/-- Witness for C4 at a concrete input. -/
theorem c4_min_level_zero_witness :
    minLevel (calculate_generation_levels soloFam) = 0 ∧
    (∀ e ∈ calculate_generation_levels soloFam, ∃ l, e.2.level = some l ∧ 0 ≤ l) ∧
    ∃ e ∈ calculate_generation_levels soloFam, e.2.level = some 0 :=
  c4_min_level_zero soloFam (by decide)

/-! ### Conflicting multi-parent graphs (claim C6) and the orphan
fallback (claim C7) -/

/-- A mapping with conflicting multi-parent paths (one-sided links are
within the allowed input space): person 13 has parents 21 and 12; the
deep chain 10-11-12 assigns 13 a high level before 13's dequeue, whose
parent relaxation then raises 21 above its parent 20's level plus one. -/
def conflictFam : FamilyData Nat :=
  [(10, { children := [11] }),
   (11, { parents := [10], children := [12] }),
   (12, { parents := [11], children := [13] }),
   (20, { children := [21] }),
   (21, { parents := [20] }),
   (13, { parents := [21, 12] })]

/-- C6: the bound `level(C) ≤ level(P) + 1` is not guaranteed — there is
an input mapping with a person and one of its children both present
whose returned levels differ by more than one (here `0` and `2`). -/
theorem c6_child_level_gap :
    ∃ (fd : FamilyData Nat) (pid cid : Nat) (pp qc : Person Nat) (lp lc : Int),
      getPerson (calculate_generation_levels fd) pid = some pp ∧
      getPerson (calculate_generation_levels fd) cid = some qc ∧
      cid ∈ pp.children ∧
      pp.level = some lp ∧ qc.level = some lc ∧ lp + 1 < lc := by
  refine ⟨conflictFam, 20, 21, _, _, 0, 2, rfl, rfl, ?_, ?_, ?_, ?_⟩ <;> decide

/-- The cyclic two-person dataset of the C7 example: each lists the
other as a parent and neither has any other edge. -/
def cycleFam : FamilyData Nat :=
  [(1, { parents := [2] }), (2, { parents := [1] })]

/-- C7: a person never reached by the relaxation (its level is still
unassigned when the worklist empties) receives the base level directly
and is then normalized with everyone else; in the two-person parent
cycle neither is detected as a root, both are unreached, and both end at
level `0`. -/
theorem c7_orphan_fallback :
    (∀ (α : Type) [DecidableEq α] (fd : FamilyData α) (i : α) (p : Person α),
      ¬ fd.isEmpty = true →
      getPerson (afterBFS fd) i = some p → p.level = none →
      getPerson (calculate_generation_levels fd) i =
        some { p with
          level := some (base_level - minLevel (fillDefaults (afterBFS fd))) }) ∧
    initialRoots cycleFam = [] ∧
    getLevel (afterBFS cycleFam) 1 = none ∧
    getLevel (afterBFS cycleFam) 2 = none ∧
    getLevel (calculate_generation_levels cycleFam) 1 = some 0 ∧
    getLevel (calculate_generation_levels cycleFam) 2 = some 0 := by
  refine ⟨?_, by decide, by decide, by decide, by decide, by decide⟩
  intro α inst fd i p hne hbfs hnone
  rw [calc_eq_of_nonempty fd hne]
  simp only [normalizeLevels, fillDefaults, getPerson_mapPersons, hbfs, Option.map_some',
    hnone, if_pos, Option.map_some']

/-- Witness for C7's general statement, at the cyclic dataset. -/
theorem c7_orphan_fallback_witness :
    getPerson (calculate_generation_levels cycleFam) 1 =
      some { ({ parents := [2] } : Person Nat) with
        level := some (base_level - minLevel (fillDefaults (afterBFS cycleFam))) } :=
  c7_orphan_fallback.1 Nat cycleFam 1 { parents := [2] } (by decide) (by decide) rfl

/-! ### Deleting a person (claim C9) -/

theorem mem_calc_shape (fd : FamilyData ID) (e : ID × Person ID)
    (he : e ∈ calculate_generation_levels fd) :
    ∃ p0, (e.1, p0) ∈ fd ∧ stripLevel p0 = stripLevel e.2 := by
  have h1 : (e.1, stripLevel e.2) ∈ resetLevels (calculate_generation_levels fd) := by
    rw [resetLevels, mapPersons]
    exact List.mem_map.mpr ⟨e, he, rfl⟩
  rw [resetLevels_calc] at h1
  rw [resetLevels, mapPersons] at h1
  rcases List.mem_map.mp h1 with ⟨e0, he0, heq⟩
  have hk2 : (e0.1, stripLevel e0.2).1 = (e.1, stripLevel e.2).1 := congrArg Prod.fst heq
  have hp2 : (e0.1, stripLevel e0.2).2 = (e.1, stripLevel e.2).2 := congrArg Prod.snd heq
  have hk : e0.1 = e.1 := hk2
  have hp : stripLevel e0.2 = stripLevel e.2 := hp2
  refine ⟨e0.2, ?_, hp⟩
  rw [← hk, Prod.mk.eta]
  exact he0

theorem scrubAndRemove_no_refs (fd : FamilyData ID) (d : ID)
    (hnd : ∀ e ∈ fd, e.2.parents.Nodup ∧ e.2.children.Nodup) :
    containsKey (scrubAndRemove fd d) d = false ∧
    ∀ e ∈ scrubAndRemove fd d,
      d ∉ e.2.parents ∧ d ∉ e.2.children ∧
      e.2.married_to ≠ some d ∧ e.2.divorced_from ≠ some d := by
  constructor
  · rw [Bool.eq_false_iff]
    intro hck
    rw [containsKey_iff] at hck
    rcases List.mem_map.mp hck with ⟨e, he, hkey⟩
    have := (List.mem_filter.mp he).2
    rw [hkey] at this
    simp at this
  · intro e he
    rcases List.mem_filter.mp he with ⟨hmem, hkey⟩
    rcases List.mem_map.mp hmem with ⟨e0, he0, heq⟩
    by_cases h0 : e0.1 = d
    · rw [if_pos h0] at heq
      subst heq
      rw [h0] at hkey
      simp at hkey
    · rw [if_neg h0] at heq
      subst heq
      have hnd0 := hnd e0 he0
      refine ⟨?_, ?_, ?_, ?_⟩
      · show d ∉ (scrubPerson d e0.2).parents
        simp only [scrubPerson]
        by_cases hc : d ∈ e0.2.parents
        · rw [if_pos hc]
          exact hnd0.1.not_mem_erase
        · rw [if_neg hc]
          exact hc
      · show d ∉ (scrubPerson d e0.2).children
        simp only [scrubPerson]
        by_cases hc : d ∈ e0.2.children
        · rw [if_pos hc]
          exact hnd0.2.not_mem_erase
        · rw [if_neg hc]
          exact hc
      · show (scrubPerson d e0.2).married_to ≠ some d
        simp only [scrubPerson]
        by_cases hc : e0.2.married_to = some d
        · rw [if_pos hc]
          exact fun h => Option.noConfusion h
        · rw [if_neg hc]
          exact hc
      · show (scrubPerson d e0.2).divorced_from ≠ some d
        simp only [scrubPerson]
        by_cases hc : e0.2.divorced_from = some d
        · rw [if_pos hc]
          exact fun h => Option.noConfusion h
        · rw [if_neg hc]
          exact hc

/-- C9: after the confirmed-delete path runs for person `d`, the mapping
handed to the level recomputation — and therefore the final mapping — no
longer contains `d`, and no remaining record's parents, children,
married_to or divorced_from references `d`; scrubbing happens before
removal and before recomputing (the operation is exactly
`calculate_generation_levels` applied to the scrubbed-and-removed
mapping). -/
theorem c9_delete_scrubs_references (fd : FamilyData ID) (d : ID)
    (hnd : ∀ e ∈ fd, e.2.parents.Nodup ∧ e.2.children.Nodup) :
    delete_person fd d = calculate_generation_levels (scrubAndRemove fd d) ∧
    containsKey (scrubAndRemove fd d) d = false ∧
    (∀ e ∈ scrubAndRemove fd d, d ∉ e.2.parents ∧ d ∉ e.2.children ∧
      e.2.married_to ≠ some d ∧ e.2.divorced_from ≠ some d) ∧
    containsKey (delete_person fd d) d = false ∧
    (∀ e ∈ delete_person fd d, d ∉ e.2.parents ∧ d ∉ e.2.children ∧
      e.2.married_to ≠ some d ∧ e.2.divorced_from ≠ some d) := by
  have h1 := scrubAndRemove_no_refs fd d hnd
  refine ⟨rfl, h1.1, h1.2, ?_, ?_⟩
  · rw [delete_person, Bool.eq_false_iff]
    intro hck
    rw [containsKey_iff, keys_calc, ← containsKey_iff, h1.1] at hck
    simp at hck
  · intro e he
    rw [delete_person] at he
    rcases mem_calc_shape _ e he with ⟨p0, hp0, hstrip⟩
    have h2 := h1.2 (e.1, p0) hp0
    have hpar2 : (stripLevel p0).parents = (stripLevel e.2).parents :=
      congrArg Person.parents hstrip
    have hchl2 : (stripLevel p0).children = (stripLevel e.2).children :=
      congrArg Person.children hstrip
    have hmar2 : (stripLevel p0).married_to = (stripLevel e.2).married_to :=
      congrArg Person.married_to hstrip
    have hdiv2 : (stripLevel p0).divorced_from = (stripLevel e.2).divorced_from :=
      congrArg Person.divorced_from hstrip
    have hpar : p0.parents = e.2.parents := hpar2
    have hchl : p0.children = e.2.children := hchl2
    have hmar : p0.married_to = e.2.married_to := hmar2
    have hdiv : p0.divorced_from = e.2.divorced_from := hdiv2
    rw [← hpar, ← hchl, ← hmar, ← hdiv]
    exact h2

/-- A three-person dataset with marriage/divorce references, used to
witness C9. -/
def wedFam : FamilyData Nat :=
  [(1, { children := [2], married_to := some 2 }),
   (2, { parents := [1], married_to := some 1, divorced_from := some 3 }),
   (3, { divorced_from := some 2 })]

/-- Witness for C9 at a concrete input. -/
theorem c9_delete_scrubs_references_witness :
    containsKey (delete_person wedFam 2) 2 = false :=
  (c9_delete_scrubs_references wedFam 2 (by decide)).2.2.2.1

/-! ### The algorithm steps as the spec words them (claim C3)

A second model of steps 2-4, written from the specification text rather
than the source, compared against the source embedding. -/

/-- Spec step 2: "a person is an initial root if it has no parents
listed, OR if every listed parent identifier is absent from the
mapping". -/
def specIsRoot (fd : FamilyData ID) (p : Person ID) : Bool :=
  decide (p.parents = []) || p.parents.all fun q => decide (containsKey fd q = false)

/-- Spec step 2: "Collect all such roots." -/
def specInitialRoots (fd : FamilyData ID) : List ID :=
  (fd.filter fun e => specIsRoot fd e.2).map Prod.fst

/-- Spec step 3: "assign each root a base level (constant = 2) and
enqueue it". -/
def specSeed (fd : FamilyData ID) : FamilyData ID × List ID :=
  ((specInitialRoots fd).foldl (fun acc r => setLevel acc r base_level) fd,
   specInitialRoots fd)

/-- Spec step 4, first bullet: "For each child identifier present in the
mapping: if unassigned, set its level to L+1 and enqueue it; if already
assigned, update it to the minimum of its current level and L+1 (do not
enqueue again on update-only)." -/
def specVisitChild (L : Int) (st : FamilyData ID × List ID) (c : ID) :
    FamilyData ID × List ID :=
  if containsKey st.1 c then
    match getLevel st.1 c with
    | none => (setLevel st.1 c (L + 1), st.2 ++ [c])
    | some lv => (setLevel st.1 c (min lv (L + 1)), st.2)
  else st

/-- Spec step 4, second bullet: the same for parents with L-1 and
maximum. -/
def specVisitParent (L : Int) (st : FamilyData ID × List ID) (a : ID) :
    FamilyData ID × List ID :=
  if containsKey st.1 a then
    match getLevel st.1 a with
    | none => (setLevel st.1 a (L - 1), st.2 ++ [a])
    | some lv => (setLevel st.1 a (max lv (L - 1)), st.2)
  else st

/-- Spec step 4: "For the person dequeued, let L be its current level",
then visit its children and parents in order. -/
def specStep (fd : FamilyData ID) (current : ID) (queue : List ID) :
    FamilyData ID × List ID :=
  let L := (getLevel fd current).getD 0
  let st1 := (((getPerson fd current).map Person.children).getD []).foldl
    (specVisitChild L) (fd, queue)
  (((getPerson st1.1 current).map Person.parents).getD []).foldl (specVisitParent L) st1

/-- Spec step 4: "process a worklist (FIFO) of person identifiers ...
Continue until the worklist is empty" (with the same iteration budget as
the source embedding). -/
def specLoop : Nat → FamilyData ID → List ID → FamilyData ID × List ID
  | _, fd, [] => (fd, [])
  | 0, fd, q => (fd, q)
  | fuel + 1, fd, current :: rest =>
    let st := specStep fd current rest
    specLoop fuel st.1 st.2

theorem relaxChildren_eq_foldl (cs : List ID) :
    ∀ (fd : FamilyData ID) (q : List ID) (L : Int),
      relaxChildren fd q L cs = cs.foldl (specVisitChild L) (fd, q) := by
  induction cs with
  | nil => intro fd q L; rfl
  | cons c rest ih =>
    intro fd q L
    rw [relaxChildren, List.foldl_cons]
    have hrhs : specVisitChild L (fd, q) c =
        if containsKey fd c then
          match getLevel fd c with
          | none => (setLevel fd c (L + 1), q ++ [c])
          | some lv => (setLevel fd c (min lv (L + 1)), q)
        else (fd, q) := rfl
    rw [hrhs]
    by_cases hck : containsKey fd c = true
    · rw [if_pos hck, if_pos hck]
      cases hlv : getLevel fd c with
      | none => rw [ih]
      | some lv =>
        show relaxChildren (setLevel fd c (min lv (L + 1))) q L rest =
          List.foldl (specVisitChild L) (setLevel fd c (min lv (L + 1)), q) rest
        exact ih _ _ _
    · rw [if_neg hck, if_neg hck]
      exact ih fd q L

theorem relaxParents_eq_foldl (as : List ID) :
    ∀ (fd : FamilyData ID) (q : List ID) (L : Int),
      relaxParents fd q L as = as.foldl (specVisitParent L) (fd, q) := by
  induction as with
  | nil => intro fd q L; rfl
  | cons a rest ih =>
    intro fd q L
    rw [relaxParents, List.foldl_cons]
    have hrhs : specVisitParent L (fd, q) a =
        if containsKey fd a then
          match getLevel fd a with
          | none => (setLevel fd a (L - 1), q ++ [a])
          | some lv => (setLevel fd a (max lv (L - 1)), q)
        else (fd, q) := rfl
    rw [hrhs]
    by_cases hck : containsKey fd a = true
    · rw [if_pos hck, if_pos hck]
      cases hlv : getLevel fd a with
      | none => rw [ih]
      | some lv =>
        show relaxParents (setLevel fd a (max lv (L - 1))) q L rest =
          List.foldl (specVisitParent L) (setLevel fd a (max lv (L - 1)), q) rest
        exact ih _ _ _
    · rw [if_neg hck, if_neg hck]
      exact ih fd q L

theorem bfsStep_eq_specStep (fd : FamilyData ID) (current : ID) (queue : List ID) :
    bfsStep fd current queue = specStep fd current queue := by
  simp only [bfsStep, specStep]
  rw [relaxChildren_eq_foldl, relaxParents_eq_foldl]

theorem bfsLoop_eq_specLoop (fuel : Nat) :
    ∀ (fd : FamilyData ID) (q : List ID), bfsLoop fuel fd q = specLoop fuel fd q := by
  induction fuel with
  | zero => intro fd q; cases q <;> rfl
  | succ n ih =>
    intro fd q
    cases q with
    | nil => rfl
    | cons c rest =>
      rw [bfsLoop, specLoop, bfsStep_eq_specStep, ih]

theorem isInitialRoot_eq_spec (fd : FamilyData ID) (p : Person ID) :
    isInitialRoot fd p = specIsRoot fd p := by
  unfold isInitialRoot specIsRoot
  have h1 : p.parents.isEmpty = decide (p.parents = []) := by
    cases p.parents <;> simp
  have hf : (fun q => !containsKey fd q) =
      (fun q : ID => decide (containsKey fd q = false)) := by
    funext q
    cases containsKey fd q <;> rfl
  rw [h1, hf]

theorem initialRoots_eq_spec (fd : FamilyData ID) :
    initialRoots fd = specInitialRoots fd := by
  unfold initialRoots specInitialRoots
  congr 1
  apply List.filter_congr
  intro e _
  exact isInitialRoot_eq_spec fd e.2

theorem initialRoots_nodup (fd : FamilyData ID) (hnd : (keys fd).Nodup) :
    (initialRoots fd).Nodup := by
  unfold initialRoots
  unfold keys at hnd
  exact List.Nodup.sublist (List.Sublist.map Prod.fst (List.filter_sublist fd)) hnd

theorem seedLoop_all_unassigned (roots : List ID) :
    ∀ (fd : FamilyData ID) (q : List ID),
      roots.Nodup → (∀ r ∈ roots, getLevel fd r = none) →
      seedLoop fd q roots =
        (roots.foldl (fun acc r => setLevel acc r base_level) fd, q ++ roots) := by
  induction roots with
  | nil => intro fd q _ _; simp [seedLoop]
  | cons r rest ih =>
    intro fd q hnd hall
    rw [seedLoop, if_pos (hall r (List.mem_cons_self r rest)), List.foldl_cons]
    rw [ih (setLevel fd r base_level) (q ++ [r]) (List.nodup_cons.mp hnd).2 ?_]
    · rw [List.append_assoc]
      rfl
    · intro r2 hr2
      have hne : r2 ≠ r := fun h => (List.nodup_cons.mp hnd).1 (h ▸ hr2)
      rw [getLevel_setLevel_ne fd r base_level r2 hne]
      exact hall r2 (List.mem_cons_of_mem r hr2)

theorem seedRoots_eq_specSeed (fd : FamilyData ID)
    (hnd : (keys fd).Nodup) (hall : ∀ e ∈ fd, e.2.level = none) :
    seedRoots fd = specSeed fd := by
  have hlev : ∀ r ∈ initialRoots fd, getLevel fd r = none := by
    intro r hr
    have hck := initialRoots_mem_containsKey fd r hr
    rw [getLevel_eq]
    cases hp : getPerson fd r with
    | none => rfl
    | some p =>
      have := hall (r, p) (getPerson_mem fd r p hp)
      simpa using this
  rw [seedRoots, seedLoop_all_unassigned (initialRoots fd) fd [] (initialRoots_nodup fd hnd)
    hlev, specSeed, ← initialRoots_eq_spec]
  rfl

/-- C3: the source follows the specified algorithm steps — (a) the
initial roots are exactly the entries with an empty parents list or all
listed parents absent; (b) on a mapping with distinct keys and all
levels reset, seeding assigns each root the base level 2 and enqueues
exactly the roots, in order; (c) the worklist loop is the spec's FIFO
relaxation: children of the dequeued person at level L are set to L+1
and enqueued if unassigned, else min-updated without re-enqueueing, and
parents are set to L-1 and enqueued if unassigned, else max-updated
without re-enqueueing. -/
theorem c3_algorithm_steps :
    (∀ (α : Type) [DecidableEq α] (fd : FamilyData α) (i : α),
      i ∈ initialRoots fd ↔
        ∃ p, (i, p) ∈ fd ∧
          (p.parents = [] ∨ ∀ q ∈ p.parents, containsKey fd q = false)) ∧
    (∀ (α : Type) [DecidableEq α] (fd : FamilyData α),
      (keys fd).Nodup → (∀ e ∈ fd, e.2.level = none) →
      seedRoots fd = specSeed fd) ∧
    (∀ (α : Type) [DecidableEq α] (fuel : Nat) (fd : FamilyData α) (q : List α),
      bfsLoop fuel fd q = specLoop fuel fd q) := by
  refine ⟨?_, fun α _ fd hnd hall => seedRoots_eq_specSeed fd hnd hall,
    fun α _ fuel fd q => bfsLoop_eq_specLoop fuel fd q⟩
  intro α _ fd i
  unfold initialRoots
  constructor
  · intro h
    rcases List.mem_map.mp h with ⟨e, he, rfl⟩
    rcases List.mem_filter.mp he with ⟨hmem, hroot⟩
    refine ⟨e.2, by rw [Prod.mk.eta]; exact hmem, ?_⟩
    unfold isInitialRoot at hroot
    rcases Bool.or_eq_true_iff.mp hroot with h1 | h1
    · left
      exact List.isEmpty_iff.mp h1
    · right
      intro q hq
      have := List.all_eq_true.mp h1 q hq
      rw [Bool.not_eq_true'] at this
      exact this
  · rintro ⟨p, hmem, hcond⟩
    refine List.mem_map.mpr ⟨(i, p), List.mem_filter.mpr ⟨hmem, ?_⟩, rfl⟩
    unfold isInitialRoot
    apply Bool.or_eq_true_iff.mpr
    rcases hcond with h1 | h1
    · left
      rw [List.isEmpty_iff]
      exact h1
    · right
      apply List.all_eq_true.mpr
      intro q hq
      rw [Bool.not_eq_true']
      exact h1 q hq

/-- Witness for C3: the three statements instantiated at concrete
datasets. -/
theorem c3_algorithm_steps_witness :
    (1 ∈ initialRoots soloFam ↔
      ∃ p, (1, p) ∈ soloFam ∧
        (p.parents = [] ∨ ∀ q ∈ p.parents, containsKey soloFam q = false)) ∧
    seedRoots (resetLevels cycleFam) = specSeed (resetLevels cycleFam) ∧
    bfsLoop 2 (resetLevels cycleFam) [1, 2] = specLoop 2 (resetLevels cycleFam) [1, 2] :=
  ⟨c3_algorithm_steps.1 Nat soloFam 1,
   c3_algorithm_steps.2.1 Nat (resetLevels cycleFam) (by decide) (by decide),
   c3_algorithm_steps.2.2 Nat 2 (resetLevels cycleFam) [1, 2]⟩

/-! ### Forest inputs (claim C5)

On a tree/forest with bidirectional links, no conflicting paths and all
referenced identifiers present, the relaxation assigns every person the
level `2 + depth` and normalization shifts this to `depth`, so each
child sits exactly one level below its parent. -/

/-- The children list of the record at `i` (empty when `i` is absent). -/
def childrenOf (fd : FamilyData ID) (i : ID) : List ID :=
  ((getPerson fd i).map Person.children).getD []

/-- The parents list of the record at `i` (empty when `i` is absent). -/
def parentsOf (fd : FamilyData ID) (i : ID) : List ID :=
  ((getPerson fd i).map Person.parents).getD []

/-- A forest with no conflicting paths: each person has at most one
parent, parent/child links are bidirectional, every referenced
identifier is present, and `depth` witnesses acyclicity (a root has
depth 0, a child's depth is its parent's plus one). -/
def IsForest (fd : FamilyData ID) (depth : ID → Nat) : Prop :=
  (∀ e ∈ fd, e.2.parents.length ≤ 1) ∧
  (∀ e ∈ fd, ∀ c ∈ e.2.children, containsKey fd c = true ∧ e.1 ∈ parentsOf fd c) ∧
  (∀ e ∈ fd, ∀ a ∈ e.2.parents, containsKey fd a = true ∧ e.1 ∈ childrenOf fd a) ∧
  (∀ e ∈ fd, ∀ a ∈ e.2.parents, depth e.1 = depth a + 1) ∧
  (∀ e ∈ fd, e.2.parents = [] → depth e.1 = 0)

theorem getPerson_strip_of_shape {fd st : FamilyData ID}
    (hs : resetLevels st = resetLevels fd) (i : ID) :
    (getPerson st i).map stripLevel = (getPerson fd i).map stripLevel := by
  have h1 : getPerson (resetLevels st) i = (getPerson st i).map stripLevel :=
    getPerson_mapPersons stripLevel st i
  have h2 : getPerson (resetLevels fd) i = (getPerson fd i).map stripLevel :=
    getPerson_mapPersons stripLevel fd i
  rw [← h1, ← h2, hs]

theorem containsKey_of_shape {fd st : FamilyData ID}
    (hs : resetLevels st = resetLevels fd) (i : ID) :
    containsKey st i = containsKey fd i := by
  rw [Bool.eq_iff_iff, ← getPerson_isSome_iff, ← getPerson_isSome_iff]
  have := getPerson_strip_of_shape hs i
  constructor <;> intro h
  · have h2 : ((getPerson st i).map stripLevel).isSome = true := by
      rw [Option.isSome_map']; exact h
    rw [this, Option.isSome_map'] at h2
    exact h2
  · have h2 : ((getPerson fd i).map stripLevel).isSome = true := by
      rw [Option.isSome_map']; exact h
    rw [← this, Option.isSome_map'] at h2
    exact h2

theorem childrenOf_of_shape {fd st : FamilyData ID}
    (hs : resetLevels st = resetLevels fd) (i : ID) :
    childrenOf st i = childrenOf fd i := by
  have h := getPerson_strip_of_shape hs i
  unfold childrenOf
  cases h1 : getPerson st i with
  | none =>
    rw [h1] at h
    cases h2 : getPerson fd i with
    | none => rfl
    | some p => rw [h2] at h; simp at h
  | some p =>
    rw [h1] at h
    cases h2 : getPerson fd i with
    | none => rw [h2] at h; simp at h
    | some p2 =>
      rw [h2] at h
      simp only [Option.map_some'] at h ⊢
      injection h with h3
      have : (stripLevel p).children = (stripLevel p2).children := congrArg Person.children h3
      have h4 : p.children = p2.children := this
      rw [h4]

theorem parentsOf_of_shape {fd st : FamilyData ID}
    (hs : resetLevels st = resetLevels fd) (i : ID) :
    parentsOf st i = parentsOf fd i := by
  have h := getPerson_strip_of_shape hs i
  unfold parentsOf
  cases h1 : getPerson st i with
  | none =>
    rw [h1] at h
    cases h2 : getPerson fd i with
    | none => rfl
    | some p => rw [h2] at h; simp at h
  | some p =>
    rw [h1] at h
    cases h2 : getPerson fd i with
    | none => rw [h2] at h; simp at h
    | some p2 =>
      rw [h2] at h
      simp only [Option.map_some'] at h ⊢
      injection h with h3
      have : (stripLevel p).parents = (stripLevel p2).parents := congrArg Person.parents h3
      have h4 : p.parents = p2.parents := this
      rw [h4]

theorem getLevel_isSome_containsKey (fd : FamilyData ID) (i : ID)
    (h : (getLevel fd i).isSome = true) : containsKey fd i = true := by
  rw [← getPerson_isSome_iff]
  rw [getLevel_eq] at h
  cases hp : getPerson fd i with
  | none => rw [hp] at h; simp at h
  | some p => rfl

theorem getLevel_setLevel_self (fd : FamilyData ID) (j : ID) (v : Int)
    (hck : containsKey fd j = true) : getLevel (setLevel fd j v) j = some v := by
  rw [getLevel_eq, getPerson_setLevel, if_pos rfl]
  rw [← getPerson_isSome_iff] at hck
  cases hp : getPerson fd j with
  | none => rw [hp] at hck; simp at hck
  | some p => rfl

theorem isSome_getLevel_setLevel (fd : FamilyData ID) (j : ID) (v : Int) (i : ID)
    (h : (getLevel fd i).isSome = true) :
    (getLevel (setLevel fd j v) i).isSome = true := by
  by_cases hij : i = j
  · subst hij
    rw [getLevel_setLevel_self fd i v (getLevel_isSome_containsKey fd i h)]
    rfl
  · rw [getLevel_setLevel_ne fd j v i hij]
    exact h

theorem getLevel_seedFold (roots : List ID) :
    ∀ (fd0 : FamilyData ID) (v : Int) (i : ID),
      (∀ r ∈ roots, containsKey fd0 r = true) →
      getLevel (roots.foldl (fun acc r => setLevel acc r v) fd0) i =
        if i ∈ roots then some v else getLevel fd0 i := by
  induction roots with
  | nil => intro fd0 v i _; simp
  | cons r rest ih =>
    intro fd0 v i hall
    rw [List.foldl_cons, ih (setLevel fd0 r v) v i ?_]
    · by_cases hmem : i ∈ rest
      · rw [if_pos hmem, if_pos (List.mem_cons_of_mem r hmem)]
      · rw [if_neg hmem]
        by_cases hir : i = r
        · subst hir
          rw [if_pos (List.mem_cons_self i rest)]
          exact getLevel_setLevel_self fd0 i v (hall i (List.mem_cons_self i rest))
        · have hnm : i ∉ r :: rest := by
            intro hmem2
            rcases List.mem_cons.mp hmem2 with h | h
            · exact hir h
            · exact hmem h
          rw [if_neg hnm, getLevel_setLevel_ne fd0 r v i hir]
    · intro r2 h2
      rw [containsKey_setLevel]
      exact hall r2 (List.mem_cons_of_mem r h2)

/-- The invariant of the worklist loop on forest inputs. -/
structure ForestInv (fd : FamilyData ID) (depth : ID → Nat)
    (st : FamilyData ID) (queue : List ID) : Prop where
  shape : resetLevels st = resetLevels fd
  levels : ∀ i l, getLevel st i = some l → l = 2 + (depth i : Int)
  queue_ok : ∀ j ∈ queue, containsKey fd j = true ∧ (getLevel st j).isSome = true
  processed : ∀ i, containsKey fd i = true → (getLevel st i).isSome = true →
    i ∈ queue ∨
      ((∀ c ∈ childrenOf fd i, containsKey fd c = true → (getLevel st c).isSome = true) ∧
       (∀ a ∈ parentsOf fd i, containsKey fd a = true → (getLevel st a).isSome = true))
  roots_ok : ∀ e ∈ fd, e.2.parents = [] → (getLevel st e.1).isSome = true

/-- What one relaxation pass guarantees on a forest input: shape is
kept, assigned levels equal `2 + depth`, the queue is only appended to,
assignedness is monotone, every queue element is old or
present-and-assigned, and every newly assigned identifier is queued. -/
structure RelaxOut (fd : FamilyData ID) (depth : ID → Nat)
    (st st' : FamilyData ID) (q q' : List ID) : Prop where
  shape : resetLevels st' = resetLevels fd
  levels : ∀ i l, getLevel st' i = some l → l = 2 + (depth i : Int)
  queue_ext : ∃ new, q' = q ++ new
  mono : ∀ i, (getLevel st i).isSome = true → (getLevel st' i).isSome = true
  enqueued_ok : ∀ j ∈ q', j ∈ q ∨
    (containsKey fd j = true ∧ (getLevel st' j).isSome = true)
  new_in_queue : ∀ i, (getLevel st' i).isSome = true →
    (getLevel st i).isSome = true ∨ i ∈ q'

theorem relaxOut_trans {fd : FamilyData ID} {depth : ID → Nat}
    {st1 st2 st3 : FamilyData ID} {q1 q2 q3 : List ID}
    (a : RelaxOut fd depth st1 st2 q1 q2) (b : RelaxOut fd depth st2 st3 q2 q3) :
    RelaxOut fd depth st1 st3 q1 q3 where
  shape := b.shape
  levels := b.levels
  queue_ext := by
    obtain ⟨n1, h1⟩ := a.queue_ext
    obtain ⟨n2, h2⟩ := b.queue_ext
    exact ⟨n1 ++ n2, by rw [h2, h1, List.append_assoc]⟩
  mono := fun i h => b.mono i (a.mono i h)
  enqueued_ok := fun j hj => by
    rcases b.enqueued_ok j hj with h | h
    · rcases a.enqueued_ok j h with h2 | h2
      · exact Or.inl h2
      · exact Or.inr ⟨h2.1, b.mono j h2.2⟩
    · exact Or.inr h
  new_in_queue := fun i h => by
    rcases b.new_in_queue i h with h1 | h1
    · rcases a.new_in_queue i h1 with h2 | h2
      · exact Or.inl h2
      · right
        obtain ⟨n2, hq⟩ := b.queue_ext
        rw [hq]
        exact List.mem_append.mpr (Or.inl h2)
    · exact Or.inr h1

theorem relaxOut_id {fd : FamilyData ID} {depth : ID → Nat} {st : FamilyData ID}
    {q : List ID} (hs : resetLevels st = resetLevels fd)
    (hlvl : ∀ i l, getLevel st i = some l → l = 2 + (depth i : Int)) :
    RelaxOut fd depth st st q q where
  shape := hs
  levels := hlvl
  queue_ext := ⟨[], (List.append_nil q).symm⟩
  mono := fun _ h => h
  enqueued_ok := fun j hj => Or.inl hj
  new_in_queue := fun _ h => Or.inl h

/-- One fresh assignment (write `v`, enqueue `c`) is a valid relaxation
step. -/
theorem relaxOut_push {fd : FamilyData ID} {depth : ID → Nat} {st : FamilyData ID}
    {q : List ID} {c : ID} {v : Int}
    (hs : resetLevels st = resetLevels fd)
    (hck : containsKey st c = true)
    (hv : ∀ i l, getLevel (setLevel st c v) i = some l → l = 2 + (depth i : Int)) :
    RelaxOut fd depth st (setLevel st c v) q (q ++ [c]) where
  shape := by rw [resetLevels_setLevel]; exact hs
  levels := hv
  queue_ext := ⟨[c], rfl⟩
  mono := fun i h => isSome_getLevel_setLevel st c v i h
  enqueued_ok := fun j hj => by
    rcases List.mem_append.mp hj with h | h
    · exact Or.inl h
    · have hjc : j = c := List.mem_singleton.mp h
      subst hjc
      refine Or.inr ⟨by rw [← containsKey_of_shape hs]; exact hck, ?_⟩
      rw [getLevel_setLevel_self st j v hck]
      rfl
  new_in_queue := fun i h => by
    by_cases hic : i = c
    · subst hic
      exact Or.inr (List.mem_append.mpr (Or.inr (List.mem_singleton.mpr rfl)))
    · rw [getLevel_setLevel_ne st c v i hic] at h
      exact Or.inl h

/-- One update of an already-assigned identifier (no enqueue) is a valid
relaxation step. -/
theorem relaxOut_update {fd : FamilyData ID} {depth : ID → Nat} {st : FamilyData ID}
    {q : List ID} {c : ID} {v lv : Int}
    (hs : resetLevels st = resetLevels fd)
    (hlv : getLevel st c = some lv)
    (hv : ∀ i l, getLevel (setLevel st c v) i = some l → l = 2 + (depth i : Int)) :
    RelaxOut fd depth st (setLevel st c v) q q where
  shape := by rw [resetLevels_setLevel]; exact hs
  levels := hv
  queue_ext := ⟨[], (List.append_nil q).symm⟩
  mono := fun i h => isSome_getLevel_setLevel st c v i h
  enqueued_ok := fun j hj => Or.inl hj
  new_in_queue := fun i h => by
    by_cases hic : i = c
    · subst hic
      left
      rw [hlv]
      rfl
    · rw [getLevel_setLevel_ne st c v i hic] at h
      exact Or.inl h

theorem relaxChildren_forest (fd : FamilyData ID) (depth : ID → Nat) (cs : List ID) :
    ∀ (st : FamilyData ID) (q : List ID) (L : Int) (st' : FamilyData ID) (q' : List ID),
      relaxChildren st q L cs = (st', q') →
      resetLevels st = resetLevels fd →
      (∀ i l, getLevel st i = some l → l = 2 + (depth i : Int)) →
      (∀ c ∈ cs, L + 1 = 2 + (depth c : Int)) →
      RelaxOut fd depth st st' q q' ∧
      (∀ c ∈ cs, containsKey fd c = true → (getLevel st' c).isSome = true) := by
  induction cs with
  | nil =>
    intro st q L st' q' heq hs hlvl _
    have h1 : st = st' := congrArg Prod.fst heq
    have h2 : q = q' := congrArg Prod.snd heq
    subst h1; subst h2
    exact ⟨relaxOut_id hs hlvl, fun c hc => absurd hc (List.not_mem_nil c)⟩
  | cons c rest ih =>
    intro st q L st' q' heq hs hlvl hcs
    rw [relaxChildren] at heq
    by_cases hck : containsKey st c = true
    · rw [if_pos hck] at heq
      have hckfd : containsKey fd c = true := by rw [← containsKey_of_shape hs]; exact hck
      cases hlv : getLevel st c with
      | none =>
        rw [hlv] at heq
        have heq2 : relaxChildren (setLevel st c (L + 1)) (q ++ [c]) L rest = (st', q') := heq
        have hsetshape : resetLevels (setLevel st c (L + 1)) = resetLevels fd := by
          rw [resetLevels_setLevel]; exact hs
        have hsetlvl : ∀ i l, getLevel (setLevel st c (L + 1)) i = some l →
            l = 2 + (depth i : Int) := by
          intro i l h
          by_cases hic : i = c
          · subst hic
            rw [getLevel_setLevel_self st i (L + 1) hck] at h
            injection h with h2
            rw [← h2]
            exact hcs i (List.mem_cons_self i rest)
          · rw [getLevel_setLevel_ne st c (L + 1) i hic] at h
            exact hlvl i l h
        obtain ⟨out, cov⟩ := ih (setLevel st c (L + 1)) (q ++ [c]) L st' q' heq2
          hsetshape hsetlvl (fun c2 h2 => hcs c2 (List.mem_cons_of_mem c h2))
        have step1 : RelaxOut fd depth st (setLevel st c (L + 1)) q (q ++ [c]) :=
          relaxOut_push hs hck hsetlvl
        refine ⟨relaxOut_trans step1 out, ?_⟩
        intro c2 hc2 hckc2
        rcases List.mem_cons.mp hc2 with h | h
        · subst h
          apply out.mono
          rw [getLevel_setLevel_self st c2 (L + 1) hck]
          rfl
        · exact cov c2 h hckc2
      | some lv =>
        rw [hlv] at heq
        have heq2 : relaxChildren (setLevel st c (min lv (L + 1))) q L rest = (st', q') := heq
        have hsetshape : resetLevels (setLevel st c (min lv (L + 1))) = resetLevels fd := by
          rw [resetLevels_setLevel]; exact hs
        have hsetlvl : ∀ i l, getLevel (setLevel st c (min lv (L + 1))) i = some l →
            l = 2 + (depth i : Int) := by
          intro i l h
          by_cases hic : i = c
          · subst hic
            rw [getLevel_setLevel_self st i (min lv (L + 1)) hck] at h
            injection h with h2
            have ha : lv = 2 + (depth i : Int) := hlvl i lv hlv
            have hb : L + 1 = 2 + (depth i : Int) := hcs i (List.mem_cons_self i rest)
            rw [← h2, ha, hb, min_self]
          · rw [getLevel_setLevel_ne st c (min lv (L + 1)) i hic] at h
            exact hlvl i l h
        obtain ⟨out, cov⟩ := ih (setLevel st c (min lv (L + 1))) q L st' q' heq2
          hsetshape hsetlvl (fun c2 h2 => hcs c2 (List.mem_cons_of_mem c h2))
        have step1 : RelaxOut fd depth st (setLevel st c (min lv (L + 1))) q q :=
          relaxOut_update hs hlv hsetlvl
        refine ⟨relaxOut_trans step1 out, ?_⟩
        intro c2 hc2 hckc2
        rcases List.mem_cons.mp hc2 with h | h
        · subst h
          apply out.mono
          rw [getLevel_setLevel_self st c2 (min lv (L + 1)) hck]
          rfl
        · exact cov c2 h hckc2
    · rw [if_neg hck] at heq
      obtain ⟨out, cov⟩ := ih st q L st' q' heq hs hlvl
        (fun c2 h2 => hcs c2 (List.mem_cons_of_mem c h2))
      refine ⟨out, ?_⟩
      intro c2 hc2 hckc2
      rcases List.mem_cons.mp hc2 with h | h
      · subst h
        rw [containsKey_of_shape hs] at hck
        exact absurd hckc2 hck
      · exact cov c2 h hckc2

theorem relaxParents_forest (fd : FamilyData ID) (depth : ID → Nat) (as : List ID) :
    ∀ (st : FamilyData ID) (q : List ID) (L : Int) (st' : FamilyData ID) (q' : List ID),
      relaxParents st q L as = (st', q') →
      resetLevels st = resetLevels fd →
      (∀ i l, getLevel st i = some l → l = 2 + (depth i : Int)) →
      (∀ a ∈ as, L - 1 = 2 + (depth a : Int)) →
      RelaxOut fd depth st st' q q' ∧
      (∀ a ∈ as, containsKey fd a = true → (getLevel st' a).isSome = true) := by
  induction as with
  | nil =>
    intro st q L st' q' heq hs hlvl _
    have h1 : st = st' := congrArg Prod.fst heq
    have h2 : q = q' := congrArg Prod.snd heq
    subst h1; subst h2
    exact ⟨relaxOut_id hs hlvl, fun a ha => absurd ha (List.not_mem_nil a)⟩
  | cons a rest ih =>
    intro st q L st' q' heq hs hlvl hcs
    rw [relaxParents] at heq
    by_cases hck : containsKey st a = true
    · rw [if_pos hck] at heq
      have hckfd : containsKey fd a = true := by rw [← containsKey_of_shape hs]; exact hck
      cases hlv : getLevel st a with
      | none =>
        rw [hlv] at heq
        have heq2 : relaxParents (setLevel st a (L - 1)) (q ++ [a]) L rest = (st', q') := heq
        have hsetshape : resetLevels (setLevel st a (L - 1)) = resetLevels fd := by
          rw [resetLevels_setLevel]; exact hs
        have hsetlvl : ∀ i l, getLevel (setLevel st a (L - 1)) i = some l →
            l = 2 + (depth i : Int) := by
          intro i l h
          by_cases hic : i = a
          · subst hic
            rw [getLevel_setLevel_self st i (L - 1) hck] at h
            injection h with h2
            rw [← h2]
            exact hcs i (List.mem_cons_self i rest)
          · rw [getLevel_setLevel_ne st a (L - 1) i hic] at h
            exact hlvl i l h
        obtain ⟨out, cov⟩ := ih (setLevel st a (L - 1)) (q ++ [a]) L st' q' heq2
          hsetshape hsetlvl (fun a2 h2 => hcs a2 (List.mem_cons_of_mem a h2))
        have step1 : RelaxOut fd depth st (setLevel st a (L - 1)) q (q ++ [a]) :=
          relaxOut_push hs hck hsetlvl
        refine ⟨relaxOut_trans step1 out, ?_⟩
        intro a2 ha2 hcka2
        rcases List.mem_cons.mp ha2 with h | h
        · subst h
          apply out.mono
          rw [getLevel_setLevel_self st a2 (L - 1) hck]
          rfl
        · exact cov a2 h hcka2
      | some lv =>
        rw [hlv] at heq
        have heq2 : relaxParents (setLevel st a (max lv (L - 1))) q L rest = (st', q') := heq
        have hsetshape : resetLevels (setLevel st a (max lv (L - 1))) = resetLevels fd := by
          rw [resetLevels_setLevel]; exact hs
        have hsetlvl : ∀ i l, getLevel (setLevel st a (max lv (L - 1))) i = some l →
            l = 2 + (depth i : Int) := by
          intro i l h
          by_cases hic : i = a
          · subst hic
            rw [getLevel_setLevel_self st i (max lv (L - 1)) hck] at h
            injection h with h2
            have ha : lv = 2 + (depth i : Int) := hlvl i lv hlv
            have hb : L - 1 = 2 + (depth i : Int) := hcs i (List.mem_cons_self i rest)
            rw [← h2, ha, hb, max_self]
          · rw [getLevel_setLevel_ne st a (max lv (L - 1)) i hic] at h
            exact hlvl i l h
        obtain ⟨out, cov⟩ := ih (setLevel st a (max lv (L - 1))) q L st' q' heq2
          hsetshape hsetlvl (fun a2 h2 => hcs a2 (List.mem_cons_of_mem a h2))
        have step1 : RelaxOut fd depth st (setLevel st a (max lv (L - 1))) q q :=
          relaxOut_update hs hlv hsetlvl
        refine ⟨relaxOut_trans step1 out, ?_⟩
        intro a2 ha2 hcka2
        rcases List.mem_cons.mp ha2 with h | h
        · subst h
          apply out.mono
          rw [getLevel_setLevel_self st a2 (max lv (L - 1)) hck]
          rfl
        · exact cov a2 h hcka2
    · rw [if_neg hck] at heq
      obtain ⟨out, cov⟩ := ih st q L st' q' heq hs hlvl
        (fun a2 h2 => hcs a2 (List.mem_cons_of_mem a h2))
      refine ⟨out, ?_⟩
      intro a2 ha2 hcka2
      rcases List.mem_cons.mp ha2 with h | h
      · subst h
        rw [containsKey_of_shape hs] at hck
        exact absurd hcka2 hck
      · exact cov a2 h hcka2

theorem getLevel_resetLevels (fd : FamilyData ID) (i : ID) :
    getLevel (resetLevels fd) i = none := by
  rw [getLevel_eq, resetLevels, getPerson_mapPersons]
  cases getPerson fd i <;> rfl

theorem mem_initialRoots_of_entry (fd : FamilyData ID) (e : ID × Person ID)
    (he : e ∈ fd) (hroot : isInitialRoot fd e.2 = true) : e.1 ∈ initialRoots fd := by
  unfold initialRoots
  exact List.mem_map.mpr ⟨e, List.mem_filter.mpr ⟨he, hroot⟩, rfl⟩

theorem seeded_forest_inv (fd : FamilyData ID) (depth : ID → Nat)
    (hnd : (keys fd).Nodup) (hf : IsForest fd depth) :
    ForestInv fd depth (seedRoots (resetLevels fd)).1 (seedRoots (resetLevels fd)).2 := by
  have hnd0 : (keys (resetLevels fd)).Nodup := by rw [keys_resetLevels]; exact hnd
  have hlev0 : ∀ r ∈ initialRoots (resetLevels fd), getLevel (resetLevels fd) r = none :=
    fun r _ => getLevel_resetLevels fd r
  have hseed := seedLoop_all_unassigned (initialRoots (resetLevels fd)) (resetLevels fd) []
    (initialRoots_nodup (resetLevels fd) hnd0) hlev0
  have hq : (seedRoots (resetLevels fd)).2 = initialRoots (resetLevels fd) := by
    rw [seedRoots, hseed]
    rfl
  have hst : (seedRoots (resetLevels fd)).1 =
      (initialRoots (resetLevels fd)).foldl
        (fun acc r => setLevel acc r base_level) (resetLevels fd) := by
    rw [seedRoots, hseed]
  have hcks : ∀ r ∈ initialRoots (resetLevels fd), containsKey (resetLevels fd) r = true :=
    fun r hr => initialRoots_mem_containsKey (resetLevels fd) r hr
  have hlvl0 : ∀ i, getLevel (seedRoots (resetLevels fd)).1 i =
      if i ∈ initialRoots (resetLevels fd) then some base_level
      else getLevel (resetLevels fd) i := by
    intro i
    rw [hst]
    exact getLevel_seedFold (initialRoots (resetLevels fd)) (resetLevels fd) base_level i hcks
  -- a root of the reset mapping is, on a forest, exactly a parentless
  -- person, whose depth is 0
  have hroot_depth : ∀ r ∈ initialRoots (resetLevels fd), (depth r : Int) = 0 := by
    intro r hr
    unfold initialRoots at hr
    rcases List.mem_map.mp hr with ⟨e0, he0, rfl⟩
    have hroot := (List.mem_filter.mp he0).2
    have he0m := (List.mem_filter.mp he0).1
    rw [resetLevels, mapPersons] at he0m
    rcases List.mem_map.mp he0m with ⟨e1, he1, heq⟩
    have hk2 : (e1.1, stripLevel e1.2).1 = e0.1 := congrArg Prod.fst heq
    have hp2 : (e1.1, stripLevel e1.2).2 = e0.2 := congrArg Prod.snd heq
    have hk : e1.1 = e0.1 := hk2
    have hp : stripLevel e1.2 = e0.2 := hp2
    have hpar : e0.2.parents = e1.2.parents := by rw [← hp]; rfl
    -- if e1 had a parent, that parent would be present, so e0 could not
    -- pass the root test
    cases hparl : e1.2.parents with
    | nil =>
      have := hf.2.2.2.2 e1 he1 hparl
      rw [hk] at this
      exact_mod_cast congrArg (Nat.cast : Nat → Int) this
    | cons a tl =>
      exfalso
      have hcka := (hf.2.2.1 e1 he1 a (by rw [hparl]; exact List.mem_cons_self a tl)).1
      unfold isInitialRoot at hroot
      rcases Bool.or_eq_true_iff.mp hroot with h1 | h1
      · rw [List.isEmpty_iff, hpar, hparl] at h1
        exact List.noConfusion h1
      · have := List.all_eq_true.mp h1 a (by rw [hpar, hparl]; exact List.mem_cons_self a tl)
        rw [Bool.not_eq_true'] at this
        rw [containsKey_of_shape (resetLevels_resetLevels fd)] at this
        rw [this] at hcka
        exact Bool.noConfusion hcka
  constructor
  · rw [seedRoots, resetLevels_seedLoop, resetLevels_resetLevels]
  · intro i l h
    rw [hlvl0 i] at h
    by_cases hm : i ∈ initialRoots (resetLevels fd)
    · rw [if_pos hm] at h
      injection h with h2
      rw [← h2, hroot_depth i hm]
      rfl
    · rw [if_neg hm, getLevel_resetLevels] at h
      exact Option.noConfusion h
  · intro j hj
    rw [hq] at hj
    constructor
    · rw [← containsKey_of_shape (resetLevels_resetLevels fd)]
      exact hcks j hj
    · rw [hlvl0 j, if_pos hj]
      rfl
  · intro i _ hsi
    left
    rw [hq]
    rw [hlvl0 i] at hsi
    by_cases hm : i ∈ initialRoots (resetLevels fd)
    · exact hm
    · rw [if_neg hm, getLevel_resetLevels] at hsi
      exact Bool.noConfusion hsi
  · intro e he hp
    have hent : (e.1, stripLevel e.2) ∈ resetLevels fd := by
      rw [resetLevels, mapPersons]
      exact List.mem_map.mpr ⟨e, he, rfl⟩
    have hroot : isInitialRoot (resetLevels fd) (stripLevel e.2) = true := by
      unfold isInitialRoot
      apply Bool.or_eq_true_iff.mpr
      left
      rw [List.isEmpty_iff]
      show e.2.parents = []
      exact hp
    have hmem := mem_initialRoots_of_entry (resetLevels fd) (e.1, stripLevel e.2) hent hroot
    rw [hlvl0 e.1, if_pos hmem]
    rfl

theorem bfsStep_forest (fd : FamilyData ID) (depth : ID → Nat)
    (hf : IsForest fd depth) (st : FamilyData ID) (c : ID) (rest : List ID)
    (hinv : ForestInv fd depth st (c :: rest)) :
    ForestInv fd depth (bfsStep st c rest).1 (bfsStep st c rest).2 := by
  obtain ⟨hckc, hasc⟩ := hinv.queue_ok c (List.mem_cons_self c rest)
  obtain ⟨L0, hlvc⟩ := Option.isSome_iff_exists.mp hasc
  have hL0 : L0 = 2 + (depth c : Int) := hinv.levels c L0 hlvc
  have hgc : ∃ pc, getPerson fd c = some pc := by
    rw [← getPerson_isSome_iff] at hckc
    exact Option.isSome_iff_exists.mp hckc
  obtain ⟨pc, hgc⟩ := hgc
  have hepc : (c, pc) ∈ fd := getPerson_mem fd c pc hgc
  -- the level hypothesis for the children pass
  have hcs1 : ∀ c2 ∈ childrenOf fd c, L0 + 1 = 2 + (depth c2 : Int) := by
    intro c2 hc2
    have hc2m : c2 ∈ pc.children := by simpa [childrenOf, hgc] using hc2
    obtain ⟨hck2, hcpar⟩ := hf.2.1 (c, pc) hepc c2 hc2m
    have hgc2 : ∃ pc2, getPerson fd c2 = some pc2 := by
      rw [← getPerson_isSome_iff] at hck2
      exact Option.isSome_iff_exists.mp hck2
    obtain ⟨pc2, hgc2⟩ := hgc2
    have hcpar2 : c ∈ pc2.parents := by simpa [parentsOf, hgc2] using hcpar
    have hdep := hf.2.2.2.1 (c2, pc2) (getPerson_mem fd c2 pc2 hgc2) c hcpar2
    rw [hL0, hdep]
    push_cast
    ring
  -- the level hypothesis for the parents pass
  have hcs2 : ∀ a ∈ parentsOf fd c, L0 - 1 = 2 + (depth a : Int) := by
    intro a ha
    have ham : a ∈ pc.parents := by simpa [parentsOf, hgc] using ha
    have hdep := hf.2.2.2.1 (c, pc) hepc a ham
    rw [hL0, hdep]
    push_cast
    ring
  have hchl : childrenOf st c = childrenOf fd c := childrenOf_of_shape hinv.shape c
  rcases hrc : relaxChildren st rest L0 (childrenOf fd c) with ⟨st1, q1⟩
  obtain ⟨out1, cov1⟩ := relaxChildren_forest fd depth (childrenOf fd c) st rest L0 st1 q1
    hrc hinv.shape hinv.levels hcs1
  rcases hrp : relaxParents st1 q1 L0 (parentsOf fd c) with ⟨st2, q2⟩
  obtain ⟨out2, cov2⟩ := relaxParents_forest fd depth (parentsOf fd c) st1 q1 L0 st2 q2
    hrp out1.shape out1.levels hcs2
  have out := relaxOut_trans out1 out2
  have hbfs : bfsStep st c rest = (st2, q2) := by
    have e1 : bfsStep st c rest =
        relaxParents (relaxChildren st rest L0 (childrenOf fd c)).1
          (relaxChildren st rest L0 (childrenOf fd c)).2 L0
          (parentsOf (relaxChildren st rest L0 (childrenOf fd c)).1 c) := by
      simp only [bfsStep]
      rw [hlvc]
      have h0 : (some L0).getD 0 = L0 := rfl
      rw [h0]
      have hchl2 : ((getPerson st c).map Person.children).getD [] = childrenOf fd c := hchl
      rw [hchl2]
      rfl
    rw [e1, hrc]
    have hpar1 : parentsOf st1 c = parentsOf fd c := parentsOf_of_shape out1.shape c
    show relaxParents st1 q1 L0 (parentsOf st1 c) = (st2, q2)
    rw [hpar1, hrp]
  rw [hbfs]
  constructor
  · exact out.shape
  · exact out.levels
  · intro j hj
    rcases out.enqueued_ok j hj with h | h
    · have := hinv.queue_ok j (List.mem_cons_of_mem c h)
      exact ⟨this.1, out.mono j this.2⟩
    · exact h
  · intro i hcki hsi
    rcases out.new_in_queue i hsi with hold | hq2
    · rcases hinv.processed i hcki hold with hmemq | hproc
      · rcases List.mem_cons.mp hmemq with hic | hirest
        · subst hic
          right
          constructor
          · intro c2 hc2 hck2
            exact out2.mono c2 (cov1 c2 hc2 hck2)
          · intro a ha hcka
            exact cov2 a ha hcka
        · left
          obtain ⟨new, hq⟩ := out.queue_ext
          rw [hq]
          exact List.mem_append.mpr (Or.inl hirest)
      · right
        exact ⟨fun c2 hc2 hck2 => out.mono c2 (hproc.1 c2 hc2 hck2),
          fun a ha hcka => out.mono a (hproc.2 a ha hcka)⟩
    · exact Or.inl hq2
  · intro e he hp
    exact out.mono e.1 (hinv.roots_ok e he hp)

theorem bfsLoop_forest (fd : FamilyData ID) (depth : ID → Nat)
    (hf : IsForest fd depth) (fuel : Nat) :
    ∀ (st : FamilyData ID) (q : List ID), ForestInv fd depth st q →
      ForestInv fd depth (bfsLoop fuel st q).1 (bfsLoop fuel st q).2 := by
  induction fuel with
  | zero =>
    intro st q h
    cases q with
    | nil => exact h
    | cons c rest => exact h
  | succ n ih =>
    intro st q h
    cases q with
    | nil => exact h
    | cons c rest =>
      rw [bfsLoop]
      exact ih _ _ (bfsStep_forest fd depth hf st c rest h)

theorem forest_all_assigned (fd : FamilyData ID) (depth : ID → Nat)
    (hf : IsForest fd depth) (st : FamilyData ID)
    (hinv : ForestInv fd depth st []) :
    ∀ i, containsKey fd i = true → (getLevel st i).isSome = true := by
  suffices h : ∀ n i, containsKey fd i = true → depth i = n →
      (getLevel st i).isSome = true by
    exact fun i hcki => h (depth i) i hcki rfl
  intro n
  induction n using Nat.strong_induction_on with
  | _ n ih =>
    intro i hcki hdep
    have hgi : ∃ pi, getPerson fd i = some pi := by
      rw [← getPerson_isSome_iff] at hcki
      exact Option.isSome_iff_exists.mp hcki
    obtain ⟨pi, hgi⟩ := hgi
    have hepi : (i, pi) ∈ fd := getPerson_mem fd i pi hgi
    cases hparl : pi.parents with
    | nil => exact hinv.roots_ok (i, pi) hepi hparl
    | cons a tl =>
      have hdepi := hf.2.2.2.1 (i, pi) hepi a (by rw [hparl]; exact List.mem_cons_self a tl)
      have hdepi2 : depth i = depth a + 1 := hdepi
      obtain ⟨hcka, hachild⟩ := hf.2.2.1 (i, pi) hepi a
        (by rw [hparl]; exact List.mem_cons_self a tl)
      have hda : depth a < n := by omega
      have hsa := ih (depth a) hda a hcka rfl
      rcases hinv.processed a hcka hsa with hq | hproc
      · exact absurd hq (List.not_mem_nil a)
      · exact hproc.1 i hachild hcki

/-- The worklist loop of `calculate_generation_levels` empties its queue
within the iteration budget. -/
theorem afterBFS_queue_empty (fd : FamilyData ID) :
    (bfsLoop fd.length (seedRoots (resetLevels fd)).1
      (seedRoots (resetLevels fd)).2).2 = [] := by
  apply bfsLoop_queue_empty
  rw [seedRoots]
  have h1 := measure_seedLoop (initialRoots (resetLevels fd)) (resetLevels fd) []
    (fun r hr => initialRoots_mem_containsKey _ r hr)
  have h2 := noneCount_resetLevels fd
  simp only [List.length_nil] at h1
  omega

theorem afterBFS_forest_levels (fd : FamilyData ID) (depth : ID → Nat)
    (hnd : (keys fd).Nodup) (hf : IsForest fd depth) :
    ∀ i, containsKey fd i = true →
      getLevel (afterBFS fd) i = some (2 + (depth i : Int)) := by
  have hloop := bfsLoop_forest fd depth hf fd.length
    (seedRoots (resetLevels fd)).1 (seedRoots (resetLevels fd)).2
    (seeded_forest_inv fd depth hnd hf)
  rw [afterBFS_queue_empty fd] at hloop
  intro i hcki
  have hs := forest_all_assigned fd depth hf _ hloop i hcki
  obtain ⟨l, hl⟩ := Option.isSome_iff_exists.mp hs
  have := hloop.levels i l hl
  rw [afterBFS, hl, this]

theorem getLevel_calc_forest (fd : FamilyData ID) (depth : ID → Nat)
    (hnd : (keys fd).Nodup) (hf : IsForest fd depth) (j : ID)
    (hckj : containsKey fd j = true) :
    getLevel (calculate_generation_levels fd) j =
      some (2 + (depth j : Int) - minLevel (fillDefaults (afterBFS fd))) := by
  have hne : ¬ fd.isEmpty = true := by
    intro h
    rw [List.isEmpty_iff] at h
    subst h
    simp [containsKey] at hckj
  have hlev := afterBFS_forest_levels fd depth hnd hf j hckj
  rw [getLevel_eq] at hlev
  cases hpj : getPerson (afterBFS fd) j with
  | none => rw [hpj] at hlev; exact Option.noConfusion hlev
  | some pj =>
    rw [hpj] at hlev
    simp only [Option.some_bind] at hlev
    rw [calc_eq_of_nonempty fd hne, getLevel_eq]
    simp only [normalizeLevels, fillDefaults, getPerson_mapPersons, hpj, Option.map_some',
      Option.some_bind]
    simp [hlev]

/-- The three-person chain of the C5 example: A (no parents) with child
B, B with child C, all links bidirectional. -/
def chainFam : FamilyData Nat :=
  [(1, { children := [2] }),
   (2, { parents := [1], children := [3] }),
   (3, { parents := [2] })]

/-- C5: on a mapping whose parent/child edges form a tree/forest with no
conflicting paths (at most one parent each, bidirectional links, all
referenced identifiers present, consistent depths), every direct
parent/child edge satisfies `level(C) = level(P) + 1`; and on the
three-person chain the normalized levels are A=0, B=1, C=2. -/
theorem c5_forest_levels :
    (∀ (α : Type) [DecidableEq α] (fd : FamilyData α) (depth : α → Nat),
      (keys fd).Nodup → IsForest fd depth →
      ∀ i p, (i, p) ∈ calculate_generation_levels fd →
        ∀ c ∈ p.children,
          ∃ q lp lc, getPerson (calculate_generation_levels fd) c = some q ∧
            p.level = some lp ∧ q.level = some lc ∧ lc = lp + 1) ∧
    calculate_generation_levels chainFam =
      [(1, { parents := [], children := [2], married_to := none, divorced_from := none,
             level := some 0 }),
       (2, { parents := [1], children := [3], married_to := none, divorced_from := none,
             level := some 1 }),
       (3, { parents := [2], children := [], married_to := none, divorced_from := none,
             level := some 2 })] := by
  refine ⟨?_, by decide⟩
  intro α inst fd depth hnd hf i p hmem c hc
  obtain ⟨p0, hp0, hstrip⟩ := mem_calc_shape fd (i, p) hmem
  have hchl2 : (stripLevel p0).children = (stripLevel p).children :=
    congrArg Person.children hstrip
  have hchl : p0.children = p.children := hchl2
  have hcki : containsKey fd i = true := by
    rw [containsKey_iff]
    exact List.mem_map.mpr ⟨(i, p0), hp0, rfl⟩
  have hc0 : c ∈ p0.children := by rw [hchl]; exact hc
  obtain ⟨hckc, hipar⟩ := hf.2.1 (i, p0) hp0 c hc0
  obtain ⟨pcq, hgc⟩ := Option.isSome_iff_exists.mp ((getPerson_isSome_iff fd c).mpr hckc)
  have hiparm : i ∈ pcq.parents := by simpa [parentsOf, hgc] using hipar
  have hdep := hf.2.2.2.1 (c, pcq) (getPerson_mem fd c pcq hgc) i hiparm
  have hdep2 : depth c = depth i + 1 := hdep
  have hndc : (keys (calculate_generation_levels fd)).Nodup := by
    rw [keys_calc]; exact hnd
  have hgi : getPerson (calculate_generation_levels fd) i = some p :=
    getPerson_of_mem_nodup _ i p hndc hmem
  have hlevi := getLevel_calc_forest fd depth hnd hf i hcki
  rw [getLevel_eq, hgi] at hlevi
  simp only [Option.some_bind] at hlevi
  have hlevc := getLevel_calc_forest fd depth hnd hf c hckc
  have hckcc : containsKey (calculate_generation_levels fd) c = true := by
    rw [containsKey_iff, keys_calc, ← containsKey_iff]
    exact hckc
  obtain ⟨q, hq⟩ := Option.isSome_iff_exists.mp
    ((getPerson_isSome_iff (calculate_generation_levels fd) c).mpr hckcc)
  rw [getLevel_eq, hq] at hlevc
  simp only [Option.some_bind] at hlevc
  refine ⟨q, 2 + (depth i : Int) - minLevel (fillDefaults (afterBFS fd)),
    2 + (depth c : Int) - minLevel (fillDefaults (afterBFS fd)), hq, hlevi, hlevc, ?_⟩
  rw [hdep2]
  push_cast
  ring

/-- Witness for C5's general statement at the chain dataset: the edge
from A (level 0) to B (level 1). -/
theorem c5_forest_levels_witness :
    ∃ q lp lc, getPerson (calculate_generation_levels chainFam) 2 = some q ∧
      ({ parents := [], children := [2], married_to := none, divorced_from := none,
         level := some 0 } : Person Nat).level = some lp ∧
      q.level = some lc ∧ lc = lp + 1 :=
  c5_forest_levels.1 Nat chainFam (fun i => i - 1) (by decide)
    (by unfold IsForest; decide) 1
    { parents := [], children := [2], married_to := none, divorced_from := none,
      level := some 0 } (by decide) 2 (by decide)

end FamilyTree
